import Mathlib

/-!
Verification development for the item-index builder of
`scripts/openhab_crawler.py` (`build_items_index`, lines 107-224).

The builder is a pure function from a list of raw item records to
  - `items_by_name` : a flat, name-keyed index of entries, and
  - `semantic_tree` : a Location -> Equipment -> Point forest.

Python dicts (3.7+) are insertion ordered, and overwriting a key keeps its
original position; they are modelled as association lists with exactly those
semantics.  The dict subscripts of the source are fallible lookups, so the
tree-building half of the function returns `Option`.
-/

namespace Crawler

/-- Insertion-ordered string-keyed dictionary, modelling a Python `dict`
(CPython 3.7+: iteration follows insertion order, and overwriting an existing
key keeps its original position). -/
abbrev Dict (α : Type) : Type := List (String × α)

namespace Dict

/-- The keys of the dictionary, in iteration order. -/
def keys {α : Type} (d : Dict α) : List String := d.map (fun p => p.1)

/-- Python `k in d`. -/
def hasKey {α : Type} (d : Dict α) (k : String) : Bool := (keys d).contains k

/-- Python `d.get(k)` / `d[k]` as a fallible lookup. -/
def get? {α : Type} (d : Dict α) (k : String) : Option α :=
  (d.find? (fun p => p.1 == k)).map (fun p => p.2)

/-- Python `d[k] = v`: overwrite in place if the key exists (keeping its
position), otherwise append at the end. -/
def insert {α : Type} (d : Dict α) (k : String) (v : α) : Dict α :=
  if hasKey d k then d.map (fun p => if p.1 == k then (k, v) else p)
  else d ++ [(k, v)]

end Dict

/-- The `semantic` block stored on every flat-index entry
(`build_items_index`, lines 143-148). -/
structure Semantic where
  isLocation : Bool
  isEquipment : Bool
  isPoint : Bool
  propertyTags : List String
deriving Repr, DecidableEq

/-- A raw item record as fetched from the REST API.  Every field the builder
reads may be absent (`None` / missing key in Python); `metadata` is opaque
pass-through and is modelled as an association list. -/
structure Item where
  name : Option String := none
  label : Option String := none
  type : Option String := none
  category : Option String := none
  tags : Option (List String) := none
  groupNames : Option (List String) := none
  metadata : Option (List (String × String)) := none
deriving Repr, DecidableEq

/-- One value of the `items_by_name` mapping (lines 134-150). -/
structure Entry where
  name : String
  label : Option String
  type : Option String
  category : Option String
  tags : List String
  groupNames : List String
  metadata : List (String × String)
  semantic : Semantic
  rest_url : String
deriving Repr, DecidableEq

/-- One value of the auxiliary `locations` / `equipment` dicts
(lines 152-155): `{"name": ..., "tags": ..., "groupNames": ...}`. -/
structure GInfo where
  name : String
  tags : List String
  groupNames : List String
deriving Repr, DecidableEq

/-- Python `t.endswith(suffix)`, on the underlying character lists. -/
def endsWithStr (t suf : String) : Bool := suf.data.isSuffixOf t.data

/-- Line 127: `any(t.endswith("Location") or t == "Location" for t in tags)`. -/
def isLocationTags (tags : List String) : Bool :=
  tags.any (fun t => endsWithStr t "Location" || t == "Location")

/-- Line 128: `any(t.endswith("Equipment") or t == "Equipment" for t in tags)`. -/
def isEquipmentTags (tags : List String) : Bool :=
  tags.any (fun t => endsWithStr t "Equipment" || t == "Equipment")

/-- Line 129: `any(t.endswith("Point") or t == "Point" for t in tags)`. -/
def isPointTags (tags : List String) : Bool :=
  tags.any (fun t => endsWithStr t "Point" || t == "Point")

/-- Line 132: `[t for t in tags if t not in ("Location", "Equipment", "Point")]`. -/
def propertyTagsOf (tags : List String) : List String :=
  tags.filter (fun t => !(t == "Location" || t == "Equipment" || t == "Point"))

/-- The whole `semantic` block computed from a tag list (lines 127-132). -/
def mkSemantic (tags : List String) : Semantic :=
  { isLocation := isLocationTags tags
    isEquipment := isEquipmentTags tags
    isPoint := isPointTags tags
    propertyTags := propertyTagsOf tags }

/-- Lines 118-120: `name = it.get("name"); if not name: continue`.
A missing name or the empty string (both falsy in Python) yield `none`. -/
def getName (it : Item) : Option String :=
  match it.name with
  | none => none
  | some s => if s = "" then none else some s

/-- Line 122: `it.get("tags") or []`. -/
def tagsOf (it : Item) : List String := it.tags.getD []

/-- Line 123: `it.get("groupNames") or []`. -/
def groupsOf (it : Item) : List String := it.groupNames.getD []

/-- Line 124: `it.get("metadata") or {}`. -/
def metadataOf (it : Item) : List (String × String) := it.metadata.getD []

/-- The `items_by_name` entry built for a named item (lines 134-150). -/
def mkEntry (name : String) (it : Item) : Entry :=
  { name := name
    label := it.label
    type := it.type
    category := it.category
    tags := tagsOf it
    groupNames := groupsOf it
    metadata := metadataOf it
    semantic := mkSemantic (tagsOf it)
    rest_url := "/rest/items/" ++ name }

/-- The three dictionaries accumulated by the flat pass (lines 113-115). -/
structure FlatResult where
  itemsByName : Dict Entry
  locations : Dict GInfo
  equipment : Dict GInfo
deriving Repr, DecidableEq

/-- One iteration of the flat loop (lines 117-155). -/
def flatStep (acc : FlatResult) (it : Item) : FlatResult :=
  match getName it with
  | none => acc
  | some name =>
    let tags := tagsOf it
    let groups := groupsOf it
    let acc1 := { acc with itemsByName := acc.itemsByName.insert name (mkEntry name it) }
    let acc2 :=
      if isLocationTags tags then
        { acc1 with locations := acc1.locations.insert name ⟨name, tags, groups⟩ }
      else acc1
    if isEquipmentTags tags then
      { acc2 with equipment := acc2.equipment.insert name ⟨name, tags, groups⟩ }
    else acc2

/-- The flat loop itself. -/
def buildFlatAux : FlatResult → List Item → FlatResult
  | acc, [] => acc
  | acc, it :: rest => buildFlatAux (flatStep acc it) rest

/-- The flat pass of `build_items_index` (lines 113-155). -/
def buildFlat (items : List Item) : FlatResult := buildFlatAux ⟨[], [], []⟩ items

/-- One node of `location_nodes` (lines 163-168).  In the source an attached
equipment node is the dict `{"item": name, "points": [...]}` stored inside its
owner's `equipment` list; since every equipment item is attached at most once
we keep the per-equipment points lists in a separate dictionary (`eqPoints`
below) and store only the names here, preserving order. -/
structure LocNode where
  childrenLocations : List String
  equipment : List String
  points : List String
deriving Repr, DecidableEq

/-- Line 172 / 182: `[g for g in groupNames if g in location_nodes]`,
phrased over the key list of `location_nodes` (Python `g in d` tests keys). -/
def candsOf (ks : List String) (info : GInfo) : List String :=
  info.groupNames.filter (fun g => ks.contains g)

/-- Lines 161-168: one empty node per entry of `locations`. -/
def initLocationNodes (locations : Dict GInfo) : Dict LocNode :=
  locations.map (fun p => (p.1, { childrenLocations := [], equipment := [], points := [] }))

/-- Lines 170-178: attach every location as a child of the first group name
that is itself a location node, or append it to the root list.  The dict
subscript `location_nodes[parent]` is a fallible lookup, hence `Option`. -/
def assignLocationParents :
    Dict GInfo → Dict LocNode → List String → Option (Dict LocNode × List String)
  | [], nodes, roots => some (nodes, roots)
  | (locName, info) :: rest, nodes, roots =>
    match candsOf (Dict.keys nodes) info with
    | [] => assignLocationParents rest nodes (roots ++ [locName])
    | parent :: _ =>
      match Dict.get? nodes parent with
      | none => none
      | some nd =>
        assignLocationParents rest
          (nodes.insert parent
            { nd with childrenLocations := nd.childrenLocations ++ [locName] })
          roots

/-- Lines 180-187: attach every equipment item under the first group name that
is a location node, or drop it; an attached equipment gets a fresh empty
points list (the `{"item": eq_name, "points": []}` dict of line 187). -/
def assignEquipmentParents :
    Dict GInfo → Dict LocNode → Dict (List String) →
    Option (Dict LocNode × Dict (List String))
  | [], nodes, eqPts => some (nodes, eqPts)
  | (eqName, info) :: rest, nodes, eqPts =>
    match candsOf (Dict.keys nodes) info with
    | [] => assignEquipmentParents rest nodes eqPts
    | parent :: _ =>
      match Dict.get? nodes parent with
      | none => none
      | some nd =>
        assignEquipmentParents rest
          (nodes.insert parent { nd with equipment := nd.equipment ++ [eqName] })
          (eqPts ++ [(eqName, [])])

/-- Lines 189-198: the recursive `collect_equipment_nodes` traversal, as a
worklist preorder walk.  The Python recursion carries no fuel; here `fuel`
bounds the number of node visits, and the development proves that
`fuel = number of location nodes` is always sufficient (the child lists built
by `assignLocationParents` give every node at most one parent, so the part of
the graph reachable from the roots is a forest). -/
def collectEquipmentNodes (nodes : Dict LocNode) : Nat → List String → List String
  | _, [] => []
  | 0, _ :: _ => []
  | fuel + 1, n :: rest =>
    match Dict.get? nodes n with
    | none => collectEquipmentNodes nodes fuel rest
    | some nd =>
      nd.equipment ++ collectEquipmentNodes nodes fuel (nd.childrenLocations ++ rest)

/-- Line 208 / 214: `next((g for g in group_names if g in s), None)`. -/
def firstIn (groupNames : List String) (ks : List String) : Option String :=
  groupNames.find? (fun g => ks.contains g)

/-- Lines 200-219: assign every point entry of the flat index to the first
matching equipment node, else to the first matching location node, else to
nothing.  `eqSet` is the key set of the `equipment_nodes` lookup built by the
traversal; the dict subscripts are fallible lookups, hence `Option`. -/
def assignPoints :
    List (String × Entry) → List String → Dict LocNode → Dict (List String) →
    Option (Dict LocNode × Dict (List String))
  | [], _, nodes, eqPts => some (nodes, eqPts)
  | (ptName, e) :: rest, eqSet, nodes, eqPts =>
    if e.semantic.isPoint then
      match firstIn e.groupNames eqSet with
      | some g =>
        match Dict.get? eqPts g with
        | none => none
        | some pts => assignPoints rest eqSet nodes (eqPts.insert g (pts ++ [ptName]))
      | none =>
        match firstIn e.groupNames (Dict.keys nodes) with
        | some g =>
          match Dict.get? nodes g with
          | none => none
          | some nd =>
            assignPoints rest eqSet
              (nodes.insert g { nd with points := nd.points ++ [ptName] }) eqPts
        | none => assignPoints rest eqSet nodes eqPts
    else assignPoints rest eqSet nodes eqPts

/-- Lines 157-219: the whole tree-building half of `build_items_index`,
from the flat pass output to
(location nodes, root list, reachable-equipment lookup, equipment points). -/
def assembleTree (flat : FlatResult) :
    Option (Dict LocNode × List String × List String × Dict (List String)) :=
  match assignLocationParents flat.locations (initLocationNodes flat.locations) [] with
  | none => none
  | some (nodes1, roots) =>
    match assignEquipmentParents flat.equipment nodes1 [] with
    | none => none
    | some (nodes2, eqPts0) =>
      let eqSet := collectEquipmentNodes nodes2 nodes2.length roots
      match assignPoints flat.itemsByName eqSet nodes2 eqPts0 with
      | none => none
      | some (nodes3, eqPts) => some (nodes3, roots, eqSet, eqPts)

/-- The value returned by `build_items_index` (lines 221-224).
`semantic_tree` is represented by `rootLocations` (the `locations` list of the
tree, as node names) together with the `locationNodes` store and the
per-equipment points lists; `equipmentNodes` is the key set of the
`equipment_nodes` lookup of lines 189-198. -/
structure IndexResult where
  itemsByName : Dict Entry
  locationNodes : Dict LocNode
  rootLocations : List String
  equipmentNodes : List String
  eqPoints : Dict (List String)
deriving Repr, DecidableEq, Inhabited

/-- `build_items_index` (lines 107-224). -/
def buildItemsIndex (items : List Item) : Option IndexResult :=
  let flat := buildFlat items
  match assembleTree flat with
  | none => none
  | some (nodes, roots, eqSet, eqPts) =>
    some { itemsByName := flat.itemsByName, locationNodes := nodes,
           rootLocations := roots, equipmentNodes := eqSet, eqPoints := eqPts }

/-! Specification-side descriptions of the lists the builder produces.
Each "bucket" says, by a filter over the input dictionaries, which names a
given list of the output must contain. -/

/-- Names of the locations that have no location parent candidate, in
`locations` iteration order: the forest root list of lines 173-175. -/
def rootBucket (locs : Dict GInfo) (ks : List String) : List String :=
  (locs.filter (fun p => (candsOf ks p.2).isEmpty)).map (fun p => p.1)

/-- Names of the locations whose first location parent candidate is `k`:
the children list built by lines 176-178. -/
def childBucket (locs : Dict GInfo) (ks : List String) (k : String) : List String :=
  (locs.filter (fun p => (candsOf ks p.2).head? == some k)).map (fun p => p.1)

/-- Names of the equipment whose first location parent candidate is `k`
(lines 181-187). -/
def eqBucket (eqs : Dict GInfo) (ks : List String) (k : String) : List String :=
  (eqs.filter (fun p => (candsOf ks p.2).head? == some k)).map (fun p => p.1)

/-- The fresh points dictionary created by line 187: one empty list per
equipment item that found a location parent. -/
def eqPtsInit (eqs : Dict GInfo) (ks : List String) : Dict (List String) :=
  (eqs.filter (fun p => !(candsOf ks p.2).isEmpty)).map (fun p => (p.1, ([] : List String)))

/-- Point entries attached to equipment node `g` by lines 207-211. -/
def eqPtsBucket (entries : List (String × Entry)) (eqSet : List String) (g : String) :
    List String :=
  (entries.filter (fun q =>
    q.2.semantic.isPoint && (firstIn q.2.groupNames eqSet == some g))).map (fun q => q.1)

/-- Point entries attached to location node `k` by lines 213-217. -/
def locPtsBucket (entries : List (String × Entry)) (eqSet ks : List String) (k : String) :
    List String :=
  (entries.filter (fun q =>
    q.2.semantic.isPoint && (firstIn q.2.groupNames eqSet).isNone &&
      (firstIn q.2.groupNames ks == some k))).map (fun q => q.1)

/-- The child list read by the traversal of lines 189-198. -/
def csOf (nodes : Dict LocNode) (k : String) : List String :=
  match Dict.get? nodes k with
  | some nd => nd.childrenLocations
  | none => []

/-! Concrete inputs used to witness the theorems below. -/

/-- The end-to-end scenario: a root location, one equipment, one point. -/
def exKitchen : List Item :=
  [ { name := some "Kitchen", tags := some ["Location"] },
    { name := some "Fridge", tags := some ["Equipment"], groupNames := some ["Kitchen"] },
    { name := some "FridgeTemp", tags := some ["Point", "Temperature"],
      groupNames := some ["Fridge"] } ]

/-- An equipment item whose only group is not a location. -/
def exOrphan : List Item :=
  [ { name := some "Heater", tags := some ["Equipment"], groupNames := some ["Basement"] } ]

/-- A name-less record followed by a named one. -/
def exNoName : List Item :=
  [ { name := none, tags := some ["Location"] },
    { name := some "Attic", tags := some ["Location"] } ]

/-- Two records sharing a name: the first is a location, the last is not. -/
def exOverwrite : List Item :=
  [ { name := some "Attic", tags := some ["Location"] },
    { name := some "Attic" } ]

/-! ## Dictionary lemmas -/

theorem Dict.hasKey_iff {α : Type} {d : Dict α} {k : String} :
    Dict.hasKey d k = true ↔ k ∈ Dict.keys d := by
  simp [Dict.hasKey]

theorem Dict.mem_keys {α : Type} {d : Dict α} {k : String} :
    k ∈ Dict.keys d ↔ ∃ p ∈ d, p.1 = k := by
  simp [Dict.keys, List.mem_map, eq_comm]

theorem Dict.get?_eq_none {α : Type} {d : Dict α} {k : String}
    (h : Dict.hasKey d k = false) : Dict.get? d k = none := by
  have hk : k ∉ Dict.keys d := by
    intro hmem
    rw [← Dict.hasKey_iff] at hmem
    simp [hmem] at h
  have : d.find? (fun p => p.1 == k) = none := by
    rw [List.find?_eq_none]
    intro p hp hbeq
    exact hk (Dict.mem_keys.2 ⟨p, hp, by simpa using hbeq⟩)
  simp [Dict.get?, this]

theorem Dict.get?_isSome_of_hasKey {α : Type} {d : Dict α} {k : String}
    (h : Dict.hasKey d k = true) : ∃ v, Dict.get? d k = some v := by
  rw [Dict.hasKey_iff] at h
  obtain ⟨p, hp, hpk⟩ := Dict.mem_keys.1 h
  have : (d.find? (fun p => p.1 == k)).isSome = true := by
    rw [List.find?_isSome]
    exact ⟨p, hp, by simp [hpk]⟩
  obtain ⟨q, hq⟩ := Option.isSome_iff_exists.1 this
  exact ⟨q.2, by simp [Dict.get?, hq]⟩

theorem Dict.mem_of_get? {α : Type} {d : Dict α} {k : String} {v : α}
    (h : Dict.get? d k = some v) : (k, v) ∈ d := by
  unfold Dict.get? at h
  cases hf : d.find? (fun p => p.1 == k) with
  | none => rw [hf] at h; cases h
  | some p =>
    rw [hf] at h
    have hv : p.2 = v := by simpa using h
    have hmem := List.mem_of_find?_eq_some hf
    have h1 : p.1 = k := by simpa using List.find?_some hf
    have hp : p = (k, v) := by
      cases p
      simp_all
    rwa [hp] at hmem

theorem Dict.hasKey_of_get? {α : Type} {d : Dict α} {k : String} {v : α}
    (h : Dict.get? d k = some v) : Dict.hasKey d k = true :=
  Dict.hasKey_iff.2 (Dict.mem_keys.2 ⟨(k, v), Dict.mem_of_get? h, rfl⟩)

theorem Dict.get?_cons_of_pos {α : Type} {q : String × α} {rest : Dict α} {x : String}
    (h : q.1 = x) : Dict.get? (q :: rest) x = some q.2 := by
  unfold Dict.get?
  rw [List.find?_cons_of_pos _ (by simpa using h)]
  rfl

theorem Dict.get?_cons_of_neg {α : Type} {q : String × α} {rest : Dict α} {x : String}
    (h : q.1 ≠ x) : Dict.get? (q :: rest) x = Dict.get? rest x := by
  unfold Dict.get?
  rw [List.find?_cons_of_neg _ (by simpa using h)]

theorem Dict.get?_of_mem {α : Type} {d : Dict α} {p : String × α}
    (hnd : (Dict.keys d).Nodup) (hp : p ∈ d) : Dict.get? d p.1 = some p.2 := by
  induction d with
  | nil => cases hp
  | cons q rest ih =>
    have hnd' : q.1 ∉ Dict.keys rest ∧ (Dict.keys rest).Nodup := by
      rw [show Dict.keys (q :: rest) = q.1 :: Dict.keys rest from rfl,
        List.nodup_cons] at hnd
      exact hnd
    rcases List.mem_cons.1 hp with hp | hp
    · rw [hp]
      exact Dict.get?_cons_of_pos rfl
    · have hne : q.1 ≠ p.1 := fun he => hnd'.1 (he ▸ Dict.mem_keys.2 ⟨p, hp, rfl⟩)
      rw [Dict.get?_cons_of_neg hne]
      exact ih hnd'.2 hp

theorem Dict.insert_pos {α : Type} {d : Dict α} {k : String} (v : α)
    (h : Dict.hasKey d k = true) :
    Dict.insert d k v = d.map (fun p => if p.1 == k then (k, v) else p) := by
  unfold Dict.insert
  rw [h]
  rfl

theorem Dict.insert_neg {α : Type} {d : Dict α} {k : String} (v : α)
    (h : Dict.hasKey d k = false) : Dict.insert d k v = d ++ [(k, v)] := by
  unfold Dict.insert
  rw [h]
  rfl

theorem Dict.keys_map_overwrite {α : Type} (d : Dict α) (k : String) (v : α) :
    Dict.keys (d.map (fun p => if p.1 == k then (k, v) else p)) = Dict.keys d := by
  simp only [Dict.keys, List.map_map]
  apply List.map_congr_left
  intro p _
  by_cases h : p.1 = k <;> simp [h]

theorem Dict.keys_insert_of_hasKey {α : Type} {d : Dict α} {k : String} (v : α)
    (h : Dict.hasKey d k = true) : Dict.keys (Dict.insert d k v) = Dict.keys d := by
  rw [Dict.insert_pos v h, Dict.keys_map_overwrite]

theorem Dict.keys_insert_of_not {α : Type} {d : Dict α} {k : String} (v : α)
    (h : Dict.hasKey d k = false) : Dict.keys (Dict.insert d k v) = Dict.keys d ++ [k] := by
  rw [Dict.insert_neg v h]
  simp [Dict.keys]

theorem Dict.get?_map_overwrite_ne {α : Type} (d : Dict α) (k : String) (v : α)
    {x : String} (hx : x ≠ k) :
    Dict.get? (d.map (fun p => if p.1 == k then (k, v) else p)) x = Dict.get? d x := by
  induction d with
  | nil => rfl
  | cons q rest ih =>
    show Dict.get? ((if q.1 == k then (k, v) else q) :: _) x = _
    by_cases hq : q.1 = k
    · rw [if_pos (by simpa using hq)]
      rw [Dict.get?_cons_of_neg (by simpa using Ne.symm hx),
        Dict.get?_cons_of_neg (by rw [hq]; exact Ne.symm hx)]
      exact ih
    · rw [if_neg (by simpa using hq)]
      by_cases hqx : q.1 = x
      · rw [Dict.get?_cons_of_pos hqx, Dict.get?_cons_of_pos hqx]
      · rw [Dict.get?_cons_of_neg hqx, Dict.get?_cons_of_neg hqx]
        exact ih

theorem Dict.get?_map_overwrite_self {α : Type} {d : Dict α} {k : String} (v : α)
    (h : Dict.hasKey d k = true) :
    Dict.get? (d.map (fun p => if p.1 == k then (k, v) else p)) k = some v := by
  induction d with
  | nil => simp [Dict.hasKey, Dict.keys] at h
  | cons q rest ih =>
    show Dict.get? ((if q.1 == k then (k, v) else q) :: _) k = _
    by_cases hq : q.1 = k
    · rw [if_pos (by simpa using hq)]
      exact Dict.get?_cons_of_pos rfl
    · rw [if_neg (by simpa using hq)]
      rw [Dict.get?_cons_of_neg hq]
      apply ih
      have : k ∈ Dict.keys (q :: rest) := Dict.hasKey_iff.1 h
      rw [show Dict.keys (q :: rest) = q.1 :: Dict.keys rest from rfl] at this
      rcases List.mem_cons.1 this with hke | hke
      · exact absurd hke.symm hq
      · exact Dict.hasKey_iff.2 hke

theorem Dict.get?_insert {α : Type} (d : Dict α) (k : String) (v : α) (x : String) :
    Dict.get? (Dict.insert d k v) x = if x = k then some v else Dict.get? d x := by
  by_cases h : Dict.hasKey d k
  · rw [Dict.insert_pos v h]
    by_cases hx : x = k
    · subst hx
      rw [if_pos rfl]
      exact Dict.get?_map_overwrite_self v h
    · rw [if_neg hx]
      exact Dict.get?_map_overwrite_ne d k v hx
  · have h' : Dict.hasKey d k = false := by simpa using h
    rw [Dict.insert_neg v h']
    by_cases hx : x = k
    · subst hx
      rw [if_pos rfl]
      have hnone : Dict.get? d x = none := Dict.get?_eq_none h'
      unfold Dict.get? at hnone ⊢
      rw [List.find?_append]
      cases hf : List.find? (fun p => p.1 == x) d with
      | some p => rw [hf] at hnone; cases hnone
      | none =>
        rw [List.find?_cons_of_pos _ (by simp)]
        rfl
    · rw [if_neg hx]
      unfold Dict.get?
      rw [List.find?_append]
      rw [List.find?_cons_of_neg _ (by simpa using Ne.symm hx)]
      cases List.find? (fun p => p.1 == x) d <;> rfl

theorem Dict.hasKey_insert {α : Type} (d : Dict α) (k : String) (v : α) (x : String) :
    Dict.hasKey (Dict.insert d k v) x = (Dict.hasKey d x || x == k) := by
  by_cases h : Dict.hasKey d k
  · rw [show Dict.hasKey (Dict.insert d k v) x =
        ((Dict.keys (Dict.insert d k v)).contains x) from rfl,
      Dict.keys_insert_of_hasKey v h]
    by_cases hx : x = k
    · subst hx
      rw [show ((Dict.keys d).contains x) = Dict.hasKey d x from rfl, h]
      simp
    · rw [show ((Dict.keys d).contains x) = Dict.hasKey d x from rfl]
      have : (x == k) = false := by simpa using hx
      rw [this, Bool.or_false]
  · have h' : Dict.hasKey d k = false := by simpa using h
    rw [show Dict.hasKey (Dict.insert d k v) x =
        ((Dict.keys (Dict.insert d k v)).contains x) from rfl,
      Dict.keys_insert_of_not v h']
    by_cases hx : x = k <;>
      simp [Dict.hasKey, hx]

theorem Dict.nodup_keys_insert {α : Type} {d : Dict α} (k : String) (v : α)
    (hnd : (Dict.keys d).Nodup) : (Dict.keys (Dict.insert d k v)).Nodup := by
  by_cases h : Dict.hasKey d k
  · rw [Dict.keys_insert_of_hasKey v h]
    exact hnd
  · have h' : Dict.hasKey d k = false := by simpa using h
    rw [Dict.keys_insert_of_not v h']
    have hk : k ∉ Dict.keys d := by
      intro hmem
      rw [← Dict.hasKey_iff] at hmem
      simp [hmem] at h'
    simp [List.nodup_append, hnd, hk]

theorem Dict.keys_length {α : Type} (d : Dict α) : (Dict.keys d).length = d.length := by
  simp [Dict.keys]

/-! ## Flat-pass lemmas (lines 113-155) -/

theorem getLast?_cons_eq {α : Type} (a : α) (l : List α) :
    (a :: l).getLast? =
      match l.getLast? with
      | none => some a
      | some b => some b := by
  cases l with
  | nil => rfl
  | cons b l' =>
    rw [List.getLast?_cons_cons]
    cases h : (b :: l').getLast? with
    | none =>
      rw [List.getLast?_eq_none_iff] at h
      cases h
    | some c => rfl

theorem getName_ne_empty {it : Item} {n : String} (h : getName it = some n) : n ≠ "" := by
  unfold getName at h
  cases hn : it.name with
  | none => rw [hn] at h; cases h
  | some s =>
    rw [hn] at h
    by_cases hs : s = ""
    · simp [hs] at h
    · simp [hs] at h
      rw [← h]
      exact hs

theorem flatStep_itemsByName (acc : FlatResult) (it : Item) :
    (flatStep acc it).itemsByName =
      match getName it with
      | none => acc.itemsByName
      | some name => acc.itemsByName.insert name (mkEntry name it) := by
  unfold flatStep
  cases getName it with
  | none => rfl
  | some name =>
    by_cases h1 : isLocationTags (tagsOf it) <;>
      by_cases h2 : isEquipmentTags (tagsOf it) <;>
        simp [h1, h2]

theorem flatStep_locations (acc : FlatResult) (it : Item) :
    (flatStep acc it).locations =
      match getName it with
      | none => acc.locations
      | some name =>
        if isLocationTags (tagsOf it) then
          acc.locations.insert name ⟨name, tagsOf it, groupsOf it⟩
        else acc.locations := by
  unfold flatStep
  cases getName it with
  | none => rfl
  | some name =>
    by_cases h1 : isLocationTags (tagsOf it) <;>
      by_cases h2 : isEquipmentTags (tagsOf it) <;>
        simp [h1, h2]

theorem flatStep_equipment (acc : FlatResult) (it : Item) :
    (flatStep acc it).equipment =
      match getName it with
      | none => acc.equipment
      | some name =>
        if isEquipmentTags (tagsOf it) then
          acc.equipment.insert name ⟨name, tagsOf it, groupsOf it⟩
        else acc.equipment := by
  unfold flatStep
  cases getName it with
  | none => rfl
  | some name =>
    by_cases h1 : isLocationTags (tagsOf it) <;>
      by_cases h2 : isEquipmentTags (tagsOf it) <;>
        simp [h1, h2]

theorem flatStep_skip {acc : FlatResult} {it : Item} (h : getName it = none) :
    flatStep acc it = acc := by
  unfold flatStep
  rw [h]

theorem flatStep_itemsByName_some {acc : FlatResult} {it : Item} {m : String}
    (h : getName it = some m) :
    (flatStep acc it).itemsByName = acc.itemsByName.insert m (mkEntry m it) := by
  rw [flatStep_itemsByName, h]

theorem flatStep_locations_some {acc : FlatResult} {it : Item} {m : String}
    (h : getName it = some m) :
    (flatStep acc it).locations =
      if isLocationTags (tagsOf it) then
        acc.locations.insert m ⟨m, tagsOf it, groupsOf it⟩
      else acc.locations := by
  rw [flatStep_locations, h]

theorem flatStep_equipment_some {acc : FlatResult} {it : Item} {m : String}
    (h : getName it = some m) :
    (flatStep acc it).equipment =
      if isEquipmentTags (tagsOf it) then
        acc.equipment.insert m ⟨m, tagsOf it, groupsOf it⟩
      else acc.equipment := by
  rw [flatStep_equipment, h]

/-- Last-write-wins characterization of the flat index. -/
theorem buildFlatAux_get? (items : List Item) :
    ∀ (acc : FlatResult) (n : String),
    Dict.get? (buildFlatAux acc items).itemsByName n =
      match (items.filter (fun it => getName it == some n)).getLast? with
      | none => Dict.get? acc.itemsByName n
      | some it => some (mkEntry n it) := by
  induction items with
  | nil => intro acc n; rfl
  | cons it rest ih =>
    intro acc n
    by_cases h : getName it = some n
    · have hpred : (fun it2 => getName it2 == some n) it = true := by simpa using h
      rw [show buildFlatAux acc (it :: rest) = buildFlatAux (flatStep acc it) rest from rfl,
        @List.filter_cons_of_pos Item (fun it2 => getName it2 == some n) it rest hpred,
        getLast?_cons_eq, ih]
      cases hl : (rest.filter (fun it2 => getName it2 == some n)).getLast? with
      | none =>
        rw [flatStep_itemsByName_some h, Dict.get?_insert, if_pos rfl]
      | some it2 => rfl
    · have hpred : ¬((fun it2 => getName it2 == some n) it = true) := by simpa using h
      rw [show buildFlatAux acc (it :: rest) = buildFlatAux (flatStep acc it) rest from rfl,
        @List.filter_cons_of_neg Item (fun it2 => getName it2 == some n) it rest hpred, ih]
      cases hl : (rest.filter (fun it2 => getName it2 == some n)).getLast? with
      | none =>
        cases hn : getName it with
        | none => rw [flatStep_skip hn]
        | some m =>
          have hm : m ≠ n := fun he => h (by rw [hn, he])
          rw [flatStep_itemsByName_some hn, Dict.get?_insert, if_neg (Ne.symm hm)]
      | some it2 => rfl

/-- The whole flat pass skips name-less records. -/
theorem buildFlatAux_filter_named (items : List Item) :
    ∀ acc : FlatResult,
    buildFlatAux acc items = buildFlatAux acc (items.filter (fun it => (getName it).isSome)) := by
  induction items with
  | nil => intro acc; rfl
  | cons it rest ih =>
    intro acc
    cases h : getName it with
    | none =>
      rw [show buildFlatAux acc (it :: rest) = buildFlatAux (flatStep acc it) rest from rfl,
        flatStep_skip h, List.filter_cons_of_neg (by simp [h]), ih]
    | some n =>
      rw [show buildFlatAux acc (it :: rest) = buildFlatAux (flatStep acc it) rest from rfl,
        List.filter_cons_of_pos (by simp [h]),
        show buildFlatAux acc (it :: List.filter (fun it => (getName it).isSome) rest) =
          buildFlatAux (flatStep acc it) (List.filter (fun it => (getName it).isSome) rest)
          from rfl, ih]

/-- Every key of the three flat-pass dictionaries is the (non-empty) name of
some input record. -/
theorem buildFlatAux_hasKey_src (items : List Item) :
    ∀ (acc : FlatResult) (n : String),
    ((buildFlatAux acc items).itemsByName.hasKey n = true →
      acc.itemsByName.hasKey n = true ∨ ∃ it ∈ items, getName it = some n) ∧
    ((buildFlatAux acc items).locations.hasKey n = true →
      acc.locations.hasKey n = true ∨ ∃ it ∈ items, getName it = some n) ∧
    ((buildFlatAux acc items).equipment.hasKey n = true →
      acc.equipment.hasKey n = true ∨ ∃ it ∈ items, getName it = some n) := by
  induction items with
  | nil =>
    intro acc n
    exact ⟨fun h => Or.inl h, fun h => Or.inl h, fun h => Or.inl h⟩
  | cons it rest ih =>
    intro acc n
    have tailcase :
        (∃ it2 ∈ rest, getName it2 = some n) → ∃ it2 ∈ it :: rest, getName it2 = some n := by
      rintro ⟨it2, h2, h3⟩
      exact ⟨it2, List.mem_cons_of_mem it h2, h3⟩
    have headcase : ∀ m, getName it = some m → n = m → ∃ it2 ∈ it :: rest, getName it2 = some n :=
      fun m hn he => ⟨it, List.mem_cons_self it rest, by rw [hn, he]⟩
    refine ⟨fun h => ?_, fun h => ?_, fun h => ?_⟩
    · rcases ((ih (flatStep acc it) n).1 h) with h' | h'
      · cases hn : getName it with
        | none => rw [flatStep_skip hn] at h'; exact Or.inl h'
        | some m =>
          rw [flatStep_itemsByName_some hn, Dict.hasKey_insert] at h'
          rcases Bool.or_eq_true_iff.1 h' with h'' | h''
          · exact Or.inl h''
          · exact Or.inr (headcase m hn (by simpa using h''))
      · exact Or.inr (tailcase h')
    · rcases ((ih (flatStep acc it) n).2.1 h) with h' | h'
      · cases hn : getName it with
        | none => rw [flatStep_skip hn] at h'; exact Or.inl h'
        | some m =>
          rw [flatStep_locations_some hn] at h'
          by_cases hl : isLocationTags (tagsOf it)
          · rw [if_pos hl, Dict.hasKey_insert] at h'
            rcases Bool.or_eq_true_iff.1 h' with h'' | h''
            · exact Or.inl h''
            · exact Or.inr (headcase m hn (by simpa using h''))
          · rw [if_neg hl] at h'
            exact Or.inl h'
      · exact Or.inr (tailcase h')
    · rcases ((ih (flatStep acc it) n).2.2 h) with h' | h'
      · cases hn : getName it with
        | none => rw [flatStep_skip hn] at h'; exact Or.inl h'
        | some m =>
          rw [flatStep_equipment_some hn] at h'
          by_cases hl : isEquipmentTags (tagsOf it)
          · rw [if_pos hl, Dict.hasKey_insert] at h'
            rcases Bool.or_eq_true_iff.1 h' with h'' | h''
            · exact Or.inl h''
            · exact Or.inr (headcase m hn (by simpa using h''))
          · rw [if_neg hl] at h'
            exact Or.inl h'
      · exact Or.inr (tailcase h')

/-- The flat pass keeps all three key lists duplicate-free. -/
theorem buildFlatAux_nodup (items : List Item) :
    ∀ acc : FlatResult,
    (Dict.keys acc.itemsByName).Nodup → (Dict.keys acc.locations).Nodup →
    (Dict.keys acc.equipment).Nodup →
    (Dict.keys (buildFlatAux acc items).itemsByName).Nodup ∧
    (Dict.keys (buildFlatAux acc items).locations).Nodup ∧
    (Dict.keys (buildFlatAux acc items).equipment).Nodup := by
  induction items with
  | nil => intro acc h1 h2 h3; exact ⟨h1, h2, h3⟩
  | cons it rest ih =>
    intro acc h1 h2 h3
    apply ih (flatStep acc it)
    · cases hname : getName it with
      | none => rw [flatStep_skip hname]; exact h1
      | some m => rw [flatStep_itemsByName_some hname]; exact Dict.nodup_keys_insert m _ h1
    · cases hname : getName it with
      | none => rw [flatStep_skip hname]; exact h2
      | some m =>
        rw [flatStep_locations_some hname]
        by_cases hl : isLocationTags (tagsOf it)
        · rw [if_pos hl]; exact Dict.nodup_keys_insert m _ h2
        · rw [if_neg hl]; exact h2
    · cases hname : getName it with
      | none => rw [flatStep_skip hname]; exact h3
      | some m =>
        rw [flatStep_equipment_some hname]
        by_cases hl : isEquipmentTags (tagsOf it)
        · rw [if_pos hl]; exact Dict.nodup_keys_insert m _ h3
        · rw [if_neg hl]; exact h3

/-- Keys of the auxiliary dictionaries are always keys of the flat index. -/
theorem buildFlatAux_aux_sub (items : List Item) :
    ∀ acc : FlatResult,
    (∀ n, acc.locations.hasKey n = true → acc.itemsByName.hasKey n = true) →
    (∀ n, acc.equipment.hasKey n = true → acc.itemsByName.hasKey n = true) →
    (∀ n, (buildFlatAux acc items).locations.hasKey n = true →
      (buildFlatAux acc items).itemsByName.hasKey n = true) ∧
    (∀ n, (buildFlatAux acc items).equipment.hasKey n = true →
      (buildFlatAux acc items).itemsByName.hasKey n = true) := by
  induction items with
  | nil => intro acc h1 h2; exact ⟨h1, h2⟩
  | cons it rest ih =>
    intro acc h1 h2
    apply ih (flatStep acc it)
    · intro n hn
      cases hname : getName it with
      | none =>
        rw [flatStep_skip hname] at hn ⊢
        exact h1 n hn
      | some m =>
        rw [flatStep_locations_some hname] at hn
        rw [flatStep_itemsByName_some hname, Dict.hasKey_insert]
        by_cases hl : isLocationTags (tagsOf it)
        · rw [if_pos hl, Dict.hasKey_insert] at hn
          rcases Bool.or_eq_true_iff.1 hn with h' | h'
          · rw [h1 n h']; rfl
          · rw [h', Bool.or_true]
        · rw [if_neg hl] at hn
          rw [h1 n hn]; rfl
    · intro n hn
      cases hname : getName it with
      | none =>
        rw [flatStep_skip hname] at hn ⊢
        exact h2 n hn
      | some m =>
        rw [flatStep_equipment_some hname] at hn
        rw [flatStep_itemsByName_some hname, Dict.hasKey_insert]
        by_cases hl : isEquipmentTags (tagsOf it)
        · rw [if_pos hl, Dict.hasKey_insert] at hn
          rcases Bool.or_eq_true_iff.1 hn with h' | h'
          · rw [h2 n h']; rfl
          · rw [h', Bool.or_true]
        · rw [if_neg hl] at hn
          rw [h2 n hn]; rfl

/-! ## Bucket unfolding lemmas -/

theorem rootBucket_nil (ks : List String) : rootBucket [] ks = [] := rfl

theorem rootBucket_cons_pos {ks : List String} {info : GInfo} (locName : String)
    (rest : Dict GInfo) (h : candsOf ks info = []) :
    rootBucket ((locName, info) :: rest) ks = locName :: rootBucket rest ks := by
  simp [rootBucket, List.filter_cons, h]

theorem rootBucket_cons_neg {ks : List String} {info : GInfo} {parent : String}
    {t : List String} (locName : String) (rest : Dict GInfo)
    (h : candsOf ks info = parent :: t) :
    rootBucket ((locName, info) :: rest) ks = rootBucket rest ks := by
  simp [rootBucket, List.filter_cons, h]

theorem childBucket_nil (ks : List String) (k : String) : childBucket [] ks k = [] := rfl

theorem childBucket_cons_none {ks : List String} {info : GInfo} (locName : String)
    (rest : Dict GInfo) (k : String) (h : candsOf ks info = []) :
    childBucket ((locName, info) :: rest) ks k = childBucket rest ks k := by
  simp [childBucket, List.filter_cons, h]

theorem childBucket_cons_head {ks : List String} {info : GInfo} {parent : String}
    {t : List String} (locName : String) (rest : Dict GInfo)
    (h : candsOf ks info = parent :: t) :
    childBucket ((locName, info) :: rest) ks parent =
      locName :: childBucket rest ks parent := by
  simp [childBucket, List.filter_cons, h]

theorem childBucket_cons_other {ks : List String} {info : GInfo} {parent : String}
    {t : List String} {k : String} (locName : String) (rest : Dict GInfo)
    (h : candsOf ks info = parent :: t) (hk : k ≠ parent) :
    childBucket ((locName, info) :: rest) ks k = childBucket rest ks k := by
  have hf : ((candsOf ks info).head? == some k) = false := by
    rw [h, List.head?_cons, beq_eq_false_iff_ne]
    intro he
    exact hk (Option.some.inj he).symm
  simp [childBucket, List.filter_cons, hf]

theorem eqBucket_nil (ks : List String) (k : String) : eqBucket [] ks k = [] := rfl

theorem eqBucket_cons_none {ks : List String} {info : GInfo} (eqName : String)
    (rest : Dict GInfo) (k : String) (h : candsOf ks info = []) :
    eqBucket ((eqName, info) :: rest) ks k = eqBucket rest ks k := by
  simp [eqBucket, List.filter_cons, h]

theorem eqBucket_cons_head {ks : List String} {info : GInfo} {parent : String}
    {t : List String} (eqName : String) (rest : Dict GInfo)
    (h : candsOf ks info = parent :: t) :
    eqBucket ((eqName, info) :: rest) ks parent = eqName :: eqBucket rest ks parent := by
  simp [eqBucket, List.filter_cons, h]

theorem eqBucket_cons_other {ks : List String} {info : GInfo} {parent : String}
    {t : List String} {k : String} (eqName : String) (rest : Dict GInfo)
    (h : candsOf ks info = parent :: t) (hk : k ≠ parent) :
    eqBucket ((eqName, info) :: rest) ks k = eqBucket rest ks k := by
  have hf : ((candsOf ks info).head? == some k) = false := by
    rw [h, List.head?_cons, beq_eq_false_iff_ne]
    intro he
    exact hk (Option.some.inj he).symm
  simp [eqBucket, List.filter_cons, hf]

theorem eqPtsInit_nil (ks : List String) : eqPtsInit [] ks = [] := rfl

theorem eqPtsInit_cons_none {ks : List String} {info : GInfo} (eqName : String)
    (rest : Dict GInfo) (h : candsOf ks info = []) :
    eqPtsInit ((eqName, info) :: rest) ks = eqPtsInit rest ks := by
  simp [eqPtsInit, List.filter_cons, h]

theorem eqPtsInit_cons_some {ks : List String} {info : GInfo} {parent : String}
    {t : List String} (eqName : String) (rest : Dict GInfo)
    (h : candsOf ks info = parent :: t) :
    eqPtsInit ((eqName, info) :: rest) ks = (eqName, []) :: eqPtsInit rest ks := by
  simp [eqPtsInit, List.filter_cons, h]

/-! ## Location-node initialization and parent assignment (lines 161-178) -/

theorem initLocationNodes_keys (locations : Dict GInfo) :
    Dict.keys (initLocationNodes locations) = Dict.keys locations := by
  simp [initLocationNodes, Dict.keys, List.map_map]

theorem initLocationNodes_get? (locations : Dict GInfo) (k : String) :
    Dict.get? (initLocationNodes locations) k =
      (Dict.get? locations k).map
        (fun _ => ({ childrenLocations := [], equipment := [], points := [] } : LocNode)) := by
  unfold initLocationNodes Dict.get?
  rw [List.find?_map]
  rw [show ((fun p : String × LocNode => p.1 == k) ∘
      (fun p : String × GInfo =>
        (p.1, ({ childrenLocations := [], equipment := [], points := [] } : LocNode)))) =
      (fun p : String × GInfo => p.1 == k) from rfl]
  cases locations.find? (fun p => p.1 == k) <;> rfl

theorem candsOf_head_hasKey {nodes : Dict LocNode} {info : GInfo} {parent : String}
    {t : List String} (h : candsOf (Dict.keys nodes) info = parent :: t) :
    Dict.hasKey nodes parent = true := by
  have hmem : parent ∈ candsOf (Dict.keys nodes) info := by
    rw [h]
    exact List.mem_cons_self parent t
  exact List.of_mem_filter hmem

theorem assignLocationParents_cons (locName : String) (info : GInfo) (rest : Dict GInfo)
    (nodes : Dict LocNode) (roots : List String) :
    assignLocationParents ((locName, info) :: rest) nodes roots =
      match candsOf (Dict.keys nodes) info with
      | [] => assignLocationParents rest nodes (roots ++ [locName])
      | parent :: _ =>
        match Dict.get? nodes parent with
        | none => none
        | some nd =>
          assignLocationParents rest
            (nodes.insert parent
              { nd with childrenLocations := nd.childrenLocations ++ [locName] })
            roots := rfl

/-- Characterization of the location-parent loop (lines 170-178): it always
succeeds, keys are unchanged, the root accumulator grows by exactly the
locations with no parent candidate, and every node's children list grows by
exactly the locations whose first candidate it is. -/
theorem assignLocationParents_spec :
    ∀ (locs : Dict GInfo) (nodes : Dict LocNode) (roots : List String),
    ∃ nodes',
      assignLocationParents locs nodes roots =
        some (nodes', roots ++ rootBucket locs (Dict.keys nodes)) ∧
      Dict.keys nodes' = Dict.keys nodes ∧
      (∀ k, Dict.get? nodes k = none → Dict.get? nodes' k = none) ∧
      (∀ k nd, Dict.get? nodes k = some nd →
        Dict.get? nodes' k =
          some { nd with childrenLocations :=
            nd.childrenLocations ++ childBucket locs (Dict.keys nodes) k }) := by
  intro locs
  induction locs with
  | nil =>
    intro nodes roots
    refine ⟨nodes, by simp [assignLocationParents, rootBucket_nil], rfl, fun k h => h, ?_⟩
    intro k nd h
    rw [childBucket_nil]
    simpa using h
  | cons p rest ih =>
    obtain ⟨locName, info⟩ := p
    intro nodes roots
    cases hc : candsOf (Dict.keys nodes) info with
    | nil =>
      obtain ⟨nodes', h1, h2, h3, h4⟩ := ih nodes (roots ++ [locName])
      refine ⟨nodes', ?_, h2, h3, ?_⟩
      · rw [assignLocationParents_cons, hc]
        dsimp only
        rw [h1, rootBucket_cons_pos locName rest hc]
        simp
      · intro k nd h
        rw [h4 k nd h, childBucket_cons_none locName rest k hc]
    | cons parent t =>
      have hpk : Dict.hasKey nodes parent = true := candsOf_head_hasKey hc
      obtain ⟨nd0, hnd0⟩ := Dict.get?_isSome_of_hasKey hpk
      have hkeys : Dict.keys (nodes.insert parent
          { nd0 with childrenLocations := nd0.childrenLocations ++ [locName] }) =
          Dict.keys nodes :=
        Dict.keys_insert_of_hasKey _ hpk
      obtain ⟨nodes', h1, h2, h3, h4⟩ :=
        ih (nodes.insert parent
          { nd0 with childrenLocations := nd0.childrenLocations ++ [locName] }) roots
      rw [hkeys] at h1 h2
      refine ⟨nodes', ?_, h2, ?_, ?_⟩
      · rw [assignLocationParents_cons, hc]
        dsimp only
        rw [hnd0]
        dsimp only
        rw [h1, rootBucket_cons_neg locName rest hc]
      · intro k hk
        have hkp : k ≠ parent := by
          intro he
          rw [he, hnd0] at hk
          cases hk
        apply h3
        rw [Dict.get?_insert, if_neg hkp]
        exact hk
      · intro k nd hknd
        by_cases hkp : k = parent
        · subst hkp
          have hee : nd0 = nd := Option.some.inj (hnd0.symm.trans hknd)
          subst hee
          have hstep : Dict.get? (nodes.insert k
              { nd0 with childrenLocations := nd0.childrenLocations ++ [locName] }) k =
              some { nd0 with childrenLocations := nd0.childrenLocations ++ [locName] } := by
            rw [Dict.get?_insert, if_pos rfl]
          have := h4 k _ hstep
          rw [hkeys] at this
          rw [this, childBucket_cons_head locName rest hc]
          simp
        · have hstep : Dict.get? (nodes.insert parent
              { nd0 with childrenLocations := nd0.childrenLocations ++ [locName] }) k =
              some nd := by
            rw [Dict.get?_insert, if_neg hkp]
            exact hknd
          have := h4 k _ hstep
          rw [hkeys] at this
          rw [this, childBucket_cons_other locName rest hc hkp]

/-! ## Equipment placement (lines 180-187) -/

theorem assignEquipmentParents_cons (eqName : String) (info : GInfo) (rest : Dict GInfo)
    (nodes : Dict LocNode) (eqPts : Dict (List String)) :
    assignEquipmentParents ((eqName, info) :: rest) nodes eqPts =
      match candsOf (Dict.keys nodes) info with
      | [] => assignEquipmentParents rest nodes eqPts
      | parent :: _ =>
        match Dict.get? nodes parent with
        | none => none
        | some nd =>
          assignEquipmentParents rest
            (nodes.insert parent { nd with equipment := nd.equipment ++ [eqName] })
            (eqPts ++ [(eqName, [])]) := rfl

/-- Characterization of the equipment loop (lines 180-187): it always
succeeds, keys are unchanged, the per-equipment points dictionary grows by one
fresh empty list per placed equipment, and every node's equipment list grows
by exactly the equipment whose first candidate it is. -/
theorem assignEquipmentParents_spec :
    ∀ (eqs : Dict GInfo) (nodes : Dict LocNode) (eqPts : Dict (List String)),
    ∃ nodes',
      assignEquipmentParents eqs nodes eqPts =
        some (nodes', eqPts ++ eqPtsInit eqs (Dict.keys nodes)) ∧
      Dict.keys nodes' = Dict.keys nodes ∧
      (∀ k, Dict.get? nodes k = none → Dict.get? nodes' k = none) ∧
      (∀ k nd, Dict.get? nodes k = some nd →
        Dict.get? nodes' k =
          some { nd with equipment := nd.equipment ++ eqBucket eqs (Dict.keys nodes) k }) := by
  intro eqs
  induction eqs with
  | nil =>
    intro nodes eqPts
    refine ⟨nodes, by simp [assignEquipmentParents, eqPtsInit_nil], rfl, fun k h => h, ?_⟩
    intro k nd h
    rw [eqBucket_nil]
    simpa using h
  | cons p rest ih =>
    obtain ⟨eqName, info⟩ := p
    intro nodes eqPts
    cases hc : candsOf (Dict.keys nodes) info with
    | nil =>
      obtain ⟨nodes', h1, h2, h3, h4⟩ := ih nodes eqPts
      refine ⟨nodes', ?_, h2, h3, ?_⟩
      · rw [assignEquipmentParents_cons, hc]
        dsimp only
        rw [h1, eqPtsInit_cons_none eqName rest hc]
      · intro k nd h
        rw [h4 k nd h, eqBucket_cons_none eqName rest k hc]
    | cons parent t =>
      have hpk : Dict.hasKey nodes parent = true := candsOf_head_hasKey hc
      obtain ⟨nd0, hnd0⟩ := Dict.get?_isSome_of_hasKey hpk
      have hkeys : Dict.keys (nodes.insert parent
          { nd0 with equipment := nd0.equipment ++ [eqName] }) = Dict.keys nodes :=
        Dict.keys_insert_of_hasKey _ hpk
      obtain ⟨nodes', h1, h2, h3, h4⟩ :=
        ih (nodes.insert parent { nd0 with equipment := nd0.equipment ++ [eqName] })
          (eqPts ++ [(eqName, [])])
      rw [hkeys] at h1 h2
      refine ⟨nodes', ?_, h2, ?_, ?_⟩
      · rw [assignEquipmentParents_cons, hc]
        dsimp only
        rw [hnd0]
        dsimp only
        rw [h1, eqPtsInit_cons_some eqName rest hc]
        simp
      · intro k hk
        have hkp : k ≠ parent := by
          intro he
          rw [he, hnd0] at hk
          cases hk
        apply h3
        rw [Dict.get?_insert, if_neg hkp]
        exact hk
      · intro k nd hknd
        by_cases hkp : k = parent
        · subst hkp
          have hee : nd0 = nd := Option.some.inj (hnd0.symm.trans hknd)
          subst hee
          have hstep : Dict.get? (nodes.insert k
              { nd0 with equipment := nd0.equipment ++ [eqName] }) k =
              some { nd0 with equipment := nd0.equipment ++ [eqName] } := by
            rw [Dict.get?_insert, if_pos rfl]
          have := h4 k _ hstep
          rw [hkeys] at this
          rw [this, eqBucket_cons_head eqName rest hc]
          simp
        · have hstep : Dict.get? (nodes.insert parent
              { nd0 with equipment := nd0.equipment ++ [eqName] }) k = some nd := by
            rw [Dict.get?_insert, if_neg hkp]
            exact hknd
          have := h4 k _ hstep
          rw [hkeys] at this
          rw [this, eqBucket_cons_other eqName rest hc hkp]

/-! ## The equipment-node traversal (lines 189-198) -/

/-- Everything collected by the traversal is an entry of some node's
equipment list. -/
theorem mem_collectEquipmentNodes (nodes : Dict LocNode) :
    ∀ (fuel : Nat) (ws : List String) (x : String),
    x ∈ collectEquipmentNodes nodes fuel ws →
    ∃ k nd, Dict.get? nodes k = some nd ∧ x ∈ nd.equipment := by
  intro fuel
  induction fuel with
  | zero =>
    intro ws x hx
    cases ws with
    | nil => cases hx
    | cons n rest => cases hx
  | succ fuel ih =>
    intro ws x hx
    cases ws with
    | nil => cases hx
    | cons n rest =>
      rw [show collectEquipmentNodes nodes (fuel + 1) (n :: rest) =
          (match Dict.get? nodes n with
          | none => collectEquipmentNodes nodes fuel rest
          | some nd =>
            nd.equipment ++
              collectEquipmentNodes nodes fuel (nd.childrenLocations ++ rest)) from rfl] at hx
      cases hget : Dict.get? nodes n with
      | none =>
        rw [hget] at hx
        exact ih rest x hx
      | some nd =>
        rw [hget] at hx
        dsimp only at hx
        rcases List.mem_append.1 hx with hx | hx
        · exact ⟨n, nd, hget, hx⟩
        · exact ih _ x hx

/-! ## Point placement (lines 200-219) -/

theorem eqPtsBucket_nil (eqSet : List String) (g : String) : eqPtsBucket [] eqSet g = [] := rfl

theorem locPtsBucket_nil (eqSet ks : List String) (k : String) :
    locPtsBucket [] eqSet ks k = [] := rfl

theorem eqPtsBucket_cons_notPoint {e : Entry} (ptName : String)
    (rest : List (String × Entry)) (eqSet : List String) (g : String)
    (h : e.semantic.isPoint = false) :
    eqPtsBucket ((ptName, e) :: rest) eqSet g = eqPtsBucket rest eqSet g := by
  simp [eqPtsBucket, List.filter_cons, h]

theorem locPtsBucket_cons_notPoint {e : Entry} (ptName : String)
    (rest : List (String × Entry)) (eqSet ks : List String) (k : String)
    (h : e.semantic.isPoint = false) :
    locPtsBucket ((ptName, e) :: rest) eqSet ks k = locPtsBucket rest eqSet ks k := by
  simp [locPtsBucket, List.filter_cons, h]

theorem eqPtsBucket_cons_eq {e : Entry} {g0 : String} (ptName : String)
    (rest : List (String × Entry)) (eqSet : List String)
    (hp : e.semantic.isPoint = true) (hf : firstIn e.groupNames eqSet = some g0) :
    eqPtsBucket ((ptName, e) :: rest) eqSet g0 = ptName :: eqPtsBucket rest eqSet g0 := by
  simp [eqPtsBucket, List.filter_cons, hp, hf]

theorem eqPtsBucket_cons_ne {e : Entry} {g0 g : String} (ptName : String)
    (rest : List (String × Entry)) (eqSet : List String)
    (hf : firstIn e.groupNames eqSet = some g0) (hg : g ≠ g0) :
    eqPtsBucket ((ptName, e) :: rest) eqSet g = eqPtsBucket rest eqSet g := by
  have hb : (firstIn e.groupNames eqSet == some g) = false := by
    rw [hf, beq_eq_false_iff_ne]
    intro he
    exact hg (Option.some.inj he).symm
  simp [eqPtsBucket, List.filter_cons, hb]

theorem eqPtsBucket_cons_noeq {e : Entry} (ptName : String)
    (rest : List (String × Entry)) (eqSet : List String) (g : String)
    (hf : firstIn e.groupNames eqSet = none) :
    eqPtsBucket ((ptName, e) :: rest) eqSet g = eqPtsBucket rest eqSet g := by
  simp [eqPtsBucket, List.filter_cons, hf]

theorem locPtsBucket_cons_eqsome {e : Entry} {g0 : String} (ptName : String)
    (rest : List (String × Entry)) (eqSet ks : List String) (k : String)
    (hf : firstIn e.groupNames eqSet = some g0) :
    locPtsBucket ((ptName, e) :: rest) eqSet ks k = locPtsBucket rest eqSet ks k := by
  simp [locPtsBucket, List.filter_cons, hf]

theorem locPtsBucket_cons_head {e : Entry} {k0 : String} (ptName : String)
    (rest : List (String × Entry)) (eqSet ks : List String)
    (hp : e.semantic.isPoint = true) (hf : firstIn e.groupNames eqSet = none)
    (hl : firstIn e.groupNames ks = some k0) :
    locPtsBucket ((ptName, e) :: rest) eqSet ks k0 =
      ptName :: locPtsBucket rest eqSet ks k0 := by
  simp [locPtsBucket, List.filter_cons, hp, hf, hl]

theorem locPtsBucket_cons_other {e : Entry} {k0 k : String} (ptName : String)
    (rest : List (String × Entry)) (eqSet ks : List String)
    (hl : firstIn e.groupNames ks = some k0) (hk : k ≠ k0) :
    locPtsBucket ((ptName, e) :: rest) eqSet ks k = locPtsBucket rest eqSet ks k := by
  have hb : (firstIn e.groupNames ks == some k) = false := by
    rw [hl, beq_eq_false_iff_ne]
    intro he
    exact hk (Option.some.inj he).symm
  simp [locPtsBucket, List.filter_cons, hb]

theorem locPtsBucket_cons_noloc {e : Entry} (ptName : String)
    (rest : List (String × Entry)) (eqSet ks : List String) (k : String)
    (hl : firstIn e.groupNames ks = none) :
    locPtsBucket ((ptName, e) :: rest) eqSet ks k = locPtsBucket rest eqSet ks k := by
  simp [locPtsBucket, List.filter_cons, hl]

theorem assignPoints_cons (ptName : String) (e : Entry) (rest : List (String × Entry))
    (eqSet : List String) (nodes : Dict LocNode) (eqPts : Dict (List String)) :
    assignPoints ((ptName, e) :: rest) eqSet nodes eqPts =
      if e.semantic.isPoint then
        match firstIn e.groupNames eqSet with
        | some g =>
          match Dict.get? eqPts g with
          | none => none
          | some pts => assignPoints rest eqSet nodes (eqPts.insert g (pts ++ [ptName]))
        | none =>
          match firstIn e.groupNames (Dict.keys nodes) with
          | some g =>
            match Dict.get? nodes g with
            | none => none
            | some nd =>
              assignPoints rest eqSet
                (nodes.insert g { nd with points := nd.points ++ [ptName] }) eqPts
          | none => assignPoints rest eqSet nodes eqPts
      else assignPoints rest eqSet nodes eqPts := rfl

/-- Characterization of the point loop (lines 200-219): under the invariant
that every collected equipment name has a points list, it always succeeds,
keys are unchanged, every placed equipment's points list grows by exactly
the points whose first equipment match it is, and every node's points list
grows by exactly the points with no equipment match whose first location
match it is. -/
theorem assignPoints_spec (eqSet : List String) :
    ∀ (entries : List (String × Entry)) (nodes : Dict LocNode)
      (eqPts : Dict (List String)),
    (∀ g, eqSet.contains g = true → Dict.hasKey eqPts g = true) →
    ∃ nodes' eqPts',
      assignPoints entries eqSet nodes eqPts = some (nodes', eqPts') ∧
      Dict.keys nodes' = Dict.keys nodes ∧
      Dict.keys eqPts' = Dict.keys eqPts ∧
      (∀ k nd, Dict.get? nodes k = some nd →
        Dict.get? nodes' k =
          some { nd with points :=
            nd.points ++ locPtsBucket entries eqSet (Dict.keys nodes) k }) ∧
      (∀ g pts, Dict.get? eqPts g = some pts →
        Dict.get? eqPts' g = some (pts ++ eqPtsBucket entries eqSet g)) := by
  intro entries
  induction entries with
  | nil =>
    intro nodes eqPts hsub
    refine ⟨nodes, eqPts, rfl, rfl, rfl, ?_, ?_⟩
    · intro k nd h
      rw [locPtsBucket_nil]
      simpa using h
    · intro g pts h
      rw [eqPtsBucket_nil]
      simpa using h
  | cons q rest ih =>
    obtain ⟨ptName, e⟩ := q
    intro nodes eqPts hsub
    by_cases hp : e.semantic.isPoint
    · cases hfe : firstIn e.groupNames eqSet with
      | some g0 =>
        have hg0 : eqSet.contains g0 = true := List.find?_some hfe
        obtain ⟨pts0, hpts0⟩ := Dict.get?_isSome_of_hasKey (hsub g0 hg0)
        have hkeys : Dict.keys (eqPts.insert g0 (pts0 ++ [ptName])) = Dict.keys eqPts :=
          Dict.keys_insert_of_hasKey _ (hsub g0 hg0)
        have hsub' : ∀ g, eqSet.contains g = true →
            Dict.hasKey (eqPts.insert g0 (pts0 ++ [ptName])) g = true := by
          intro g hg
          show (Dict.keys (eqPts.insert g0 (pts0 ++ [ptName]))).contains g = true
          rw [hkeys]
          exact hsub g hg
        obtain ⟨nodes', eqPts', h1, h2, h3, h4, h5⟩ :=
          ih nodes (eqPts.insert g0 (pts0 ++ [ptName])) hsub'
        rw [hkeys] at h3
        refine ⟨nodes', eqPts', ?_, h2, h3, ?_, ?_⟩
        · rw [assignPoints_cons, if_pos hp, hfe]
          dsimp only
          rw [hpts0]
          dsimp only
          exact h1
        · intro k nd h
          rw [h4 k nd h, locPtsBucket_cons_eqsome ptName rest eqSet _ _ hfe]
        · intro g pts hg
          by_cases hgg : g = g0
          · subst hgg
            have hpp : pts0 = pts := Option.some.inj (hpts0.symm.trans hg)
            subst hpp
            have hstep : Dict.get? (eqPts.insert g (pts0 ++ [ptName])) g =
                some (pts0 ++ [ptName]) := by
              rw [Dict.get?_insert, if_pos rfl]
            have := h5 g _ hstep
            rw [this, eqPtsBucket_cons_eq ptName rest eqSet hp hfe]
            simp
          · have hstep : Dict.get? (eqPts.insert g0 (pts0 ++ [ptName])) g = some pts := by
              rw [Dict.get?_insert, if_neg hgg]
              exact hg
            have := h5 g _ hstep
            rw [this, eqPtsBucket_cons_ne ptName rest eqSet hfe hgg]
      | none =>
        cases hfl : firstIn e.groupNames (Dict.keys nodes) with
        | some k0 =>
          have hk0 : (Dict.keys nodes).contains k0 = true := List.find?_some hfl
          obtain ⟨nd0, hnd0⟩ := Dict.get?_isSome_of_hasKey hk0
          have hkeys : Dict.keys (nodes.insert k0
              { nd0 with points := nd0.points ++ [ptName] }) = Dict.keys nodes :=
            Dict.keys_insert_of_hasKey _ hk0
          obtain ⟨nodes', eqPts', h1, h2, h3, h4, h5⟩ :=
            ih (nodes.insert k0 { nd0 with points := nd0.points ++ [ptName] }) eqPts hsub
          rw [hkeys] at h2
          refine ⟨nodes', eqPts', ?_, h2, h3, ?_, ?_⟩
          · rw [assignPoints_cons, if_pos hp, hfe]
            dsimp only
            rw [hfl]
            dsimp only
            rw [hnd0]
            dsimp only
            exact h1
          · intro k nd h
            by_cases hkk : k = k0
            · subst hkk
              have hee : nd0 = nd := Option.some.inj (hnd0.symm.trans h)
              subst hee
              have hstep : Dict.get? (nodes.insert k
                  { nd0 with points := nd0.points ++ [ptName] }) k =
                  some { nd0 with points := nd0.points ++ [ptName] } := by
                rw [Dict.get?_insert, if_pos rfl]
              have := h4 k _ hstep
              rw [hkeys] at this
              rw [this, locPtsBucket_cons_head ptName rest eqSet _ hp hfe hfl]
              simp
            · have hstep : Dict.get? (nodes.insert k0
                  { nd0 with points := nd0.points ++ [ptName] }) k = some nd := by
                rw [Dict.get?_insert, if_neg hkk]
                exact h
              have := h4 k _ hstep
              rw [hkeys] at this
              rw [this, locPtsBucket_cons_other ptName rest eqSet _ hfl hkk]
          · intro g pts hg
            rw [h5 g pts hg, eqPtsBucket_cons_noeq ptName rest eqSet g hfe]
        | none =>
          obtain ⟨nodes', eqPts', h1, h2, h3, h4, h5⟩ := ih nodes eqPts hsub
          refine ⟨nodes', eqPts', ?_, h2, h3, ?_, ?_⟩
          · rw [assignPoints_cons, if_pos hp, hfe]
            dsimp only
            rw [hfl]
            dsimp only
            exact h1
          · intro k nd h
            rw [h4 k nd h, locPtsBucket_cons_noloc ptName rest eqSet _ _ hfl]
          · intro g pts hg
            rw [h5 g pts hg, eqPtsBucket_cons_noeq ptName rest eqSet g hfe]
    · have hp' : e.semantic.isPoint = false := by simpa using hp
      obtain ⟨nodes', eqPts', h1, h2, h3, h4, h5⟩ := ih nodes eqPts hsub
      refine ⟨nodes', eqPts', ?_, h2, h3, ?_, ?_⟩
      · rw [assignPoints_cons, if_neg (by simp [hp'])]
        exact h1
      · intro k nd h
        rw [h4 k nd h, locPtsBucket_cons_notPoint ptName rest eqSet _ _ hp']
      · intro g pts hg
        rw [h5 g pts hg, eqPtsBucket_cons_notPoint ptName rest eqSet g hp']

/-! ## Assembling `build_items_index` -/

/-- The traversal only reads the children and equipment lists. -/
theorem collectEquipmentNodes_congr {a b : Dict LocNode}
    (h : ∀ k, (Dict.get? a k).map (fun nd => (nd.childrenLocations, nd.equipment)) =
        (Dict.get? b k).map (fun nd => (nd.childrenLocations, nd.equipment))) :
    ∀ (fuel : Nat) (ws : List String),
    collectEquipmentNodes a fuel ws = collectEquipmentNodes b fuel ws := by
  intro fuel
  induction fuel with
  | zero =>
    intro ws
    cases ws <;> rfl
  | succ fuel ih =>
    intro ws
    cases ws with
    | nil => rfl
    | cons n rest =>
      have hn := h n
      rw [show collectEquipmentNodes a (fuel + 1) (n :: rest) =
          (match Dict.get? a n with
          | none => collectEquipmentNodes a fuel rest
          | some nd =>
            nd.equipment ++ collectEquipmentNodes a fuel (nd.childrenLocations ++ rest))
          from rfl,
        show collectEquipmentNodes b (fuel + 1) (n :: rest) =
          (match Dict.get? b n with
          | none => collectEquipmentNodes b fuel rest
          | some nd =>
            nd.equipment ++ collectEquipmentNodes b fuel (nd.childrenLocations ++ rest))
          from rfl]
      cases hga : Dict.get? a n with
      | none =>
        cases hgb : Dict.get? b n with
        | none => exact ih rest
        | some ndb => rw [hga, hgb] at hn; cases hn
      | some nda =>
        cases hgb : Dict.get? b n with
        | none => rw [hga, hgb] at hn; cases hn
        | some ndb =>
          rw [hga, hgb] at hn
          have hpair : (nda.childrenLocations, nda.equipment) =
              (ndb.childrenLocations, ndb.equipment) := by
            simpa using hn
          injection hpair with h1 h2
          dsimp only
          rw [h1, h2, ih]

theorem eqPtsInit_keys (eqs : Dict GInfo) (ks : List String) :
    Dict.keys (eqPtsInit eqs ks) =
      (eqs.filter (fun p => !(candsOf ks p.2).isEmpty)).map (fun p => p.1) := by
  simp [eqPtsInit, Dict.keys, List.map_map]

theorem eqPtsInit_val_nil {eqs : Dict GInfo} {ks : List String} {g : String}
    {pts : List String} (h : Dict.get? (eqPtsInit eqs ks) g = some pts) : pts = [] := by
  have hmem := Dict.mem_of_get? h
  unfold eqPtsInit at hmem
  obtain ⟨p, hp, hpe⟩ := List.mem_map.1 hmem
  exact (congrArg Prod.snd hpe).symm

theorem nodup_keys_eqPtsInit {eqs : Dict GInfo} (ks : List String)
    (hnd : (Dict.keys eqs).Nodup) : (Dict.keys (eqPtsInit eqs ks)).Nodup := by
  rw [eqPtsInit_keys]
  have hsub : ((eqs.filter (fun p => !(candsOf ks p.2).isEmpty)).map (fun p => p.1)).Sublist
      (eqs.map (fun p => p.1)) :=
    List.Sublist.map _ (List.filter_sublist eqs)
  exact hsub.nodup hnd

theorem eqBucket_hasKey_eqPtsInit {eqs : Dict GInfo} {ks : List String} {k x : String}
    (hx : x ∈ eqBucket eqs ks k) : Dict.hasKey (eqPtsInit eqs ks) x = true := by
  unfold eqBucket at hx
  obtain ⟨p, hp, hpe⟩ := List.mem_map.1 hx
  have hmem := (List.mem_filter.1 hp).1
  have hpred := (List.mem_filter.1 hp).2
  have hne : ¬(candsOf ks p.2).isEmpty = true := by
    intro he
    cases hc : candsOf ks p.2 with
    | nil => rw [hc] at hpred; simp at hpred
    | cons a t => rw [hc] at he; simp at he
  apply Dict.hasKey_iff.2
  rw [eqPtsInit_keys]
  exact List.mem_map.2 ⟨p, List.mem_filter.2 ⟨hmem, by simpa using hne⟩, hpe⟩

/-- Master characterization of `build_items_index`: it always succeeds, and
every list of the output is exactly the corresponding bucket. -/
theorem buildItemsIndex_spec (items : List Item) :
    ∃ r : IndexResult,
      buildItemsIndex items = some r ∧
      r.itemsByName = (buildFlat items).itemsByName ∧
      Dict.keys r.locationNodes = Dict.keys (buildFlat items).locations ∧
      (Dict.keys r.itemsByName).Nodup ∧
      (Dict.keys r.locationNodes).Nodup ∧
      (Dict.keys (buildFlat items).equipment).Nodup ∧
      (Dict.keys r.eqPoints).Nodup ∧
      r.rootLocations =
        rootBucket (buildFlat items).locations (Dict.keys r.locationNodes) ∧
      (∀ k nd, Dict.get? r.locationNodes k = some nd →
        nd.childrenLocations =
          childBucket (buildFlat items).locations (Dict.keys r.locationNodes) k ∧
        nd.equipment =
          eqBucket (buildFlat items).equipment (Dict.keys r.locationNodes) k ∧
        nd.points =
          locPtsBucket r.itemsByName r.equipmentNodes (Dict.keys r.locationNodes) k) ∧
      Dict.keys r.eqPoints =
        Dict.keys (eqPtsInit (buildFlat items).equipment (Dict.keys r.locationNodes)) ∧
      (∀ g pts, Dict.get? r.eqPoints g = some pts →
        pts = eqPtsBucket r.itemsByName r.equipmentNodes g) ∧
      (∀ x, x ∈ r.equipmentNodes →
        ∃ k nd, Dict.get? r.locationNodes k = some nd ∧ x ∈ nd.equipment) ∧
      r.equipmentNodes =
        collectEquipmentNodes r.locationNodes r.locationNodes.length r.rootLocations := by
  obtain ⟨hndI, hndL, hndE⟩ :=
    buildFlatAux_nodup items ⟨[], [], []⟩ List.nodup_nil List.nodup_nil List.nodup_nil
  have hflat : buildFlat items = buildFlatAux ⟨[], [], []⟩ items := rfl
  rw [← hflat] at hndI hndL hndE
  -- phase 2: location nodes
  have hks0 : Dict.keys (initLocationNodes (buildFlat items).locations) =
      Dict.keys (buildFlat items).locations := initLocationNodes_keys _
  obtain ⟨nodes1, hA1, hA2, hA3, hA4⟩ :=
    assignLocationParents_spec (buildFlat items).locations
      (initLocationNodes (buildFlat items).locations) []
  rw [hks0] at hA1 hA2
  rw [List.nil_append] at hA1
  have hnodes1 : ∀ k, Dict.hasKey nodes1 k = true →
      Dict.get? nodes1 k =
        some ⟨childBucket (buildFlat items).locations
          (Dict.keys (buildFlat items).locations) k, [], []⟩ := by
    intro k hk
    have hk0 : Dict.hasKey (initLocationNodes (buildFlat items).locations) k = true := by
      show (Dict.keys (initLocationNodes (buildFlat items).locations)).contains k = true
      rw [hks0, ← hA2]
      exact hk
    obtain ⟨v0, hv0⟩ := Dict.get?_isSome_of_hasKey hk0
    have hv0' := hv0
    rw [initLocationNodes_get?] at hv0'
    have hveq : v0 = ⟨[], [], []⟩ := by
      cases hl : Dict.get? (buildFlat items).locations k with
      | none => rw [hl] at hv0'; cases hv0'
      | some info =>
        rw [hl] at hv0'
        exact (Option.some.inj hv0').symm
    rw [hveq] at hv0
    have := hA4 k _ hv0
    rw [hks0] at this
    simpa using this
  -- phase 3: equipment
  obtain ⟨nodes2, hB1, hB2, hB3, hB4⟩ :=
    assignEquipmentParents_spec (buildFlat items).equipment nodes1 []
  rw [hA2] at hB1 hB2
  rw [List.nil_append] at hB1
  have hnodes2 : ∀ k, Dict.hasKey nodes2 k = true →
      Dict.get? nodes2 k =
        some ⟨childBucket (buildFlat items).locations
            (Dict.keys (buildFlat items).locations) k,
          eqBucket (buildFlat items).equipment
            (Dict.keys (buildFlat items).locations) k, []⟩ := by
    intro k hk
    have hk1 : Dict.hasKey nodes1 k = true := by
      show (Dict.keys nodes1).contains k = true
      rw [hA2, ← hB2]
      exact hk
    have h1 := hnodes1 k hk1
    have := hB4 k _ h1
    rw [hA2] at this
    simpa using this
  -- phase 4: traversal, and the sub-invariant for the point loop
  have hsub : ∀ g,
      (collectEquipmentNodes nodes2 nodes2.length
        (rootBucket (buildFlat items).locations
          (Dict.keys (buildFlat items).locations))).contains g = true →
      Dict.hasKey (eqPtsInit (buildFlat items).equipment
        (Dict.keys (buildFlat items).locations)) g = true := by
    intro g hg
    have hmem : g ∈ collectEquipmentNodes nodes2 nodes2.length
        (rootBucket (buildFlat items).locations
          (Dict.keys (buildFlat items).locations)) := by
      simpa using hg
    obtain ⟨k, nd, hknd, hgeq⟩ := mem_collectEquipmentNodes nodes2 _ _ g hmem
    have hk2 : Dict.hasKey nodes2 k = true := Dict.hasKey_of_get? hknd
    have hchar := hnodes2 k hk2
    have hnd : nd = ⟨childBucket (buildFlat items).locations
        (Dict.keys (buildFlat items).locations) k,
      eqBucket (buildFlat items).equipment
        (Dict.keys (buildFlat items).locations) k, []⟩ :=
      Option.some.inj (hknd.symm.trans hchar)
    rw [hnd] at hgeq
    have := eqBucket_hasKey_eqPtsInit hgeq
    simpa using this
  -- phase 5: points
  obtain ⟨nodes3, eqPts', hC1, hC2, hC3, hC4, hC5⟩ :=
    assignPoints_spec _ (buildFlat items).itemsByName nodes2 _ hsub
  rw [hB2] at hC2
  refine ⟨⟨(buildFlat items).itemsByName, nodes3,
    rootBucket (buildFlat items).locations
      (Dict.keys (buildFlat items).locations),
    collectEquipmentNodes nodes2 nodes2.length
      (rootBucket (buildFlat items).locations
        (Dict.keys (buildFlat items).locations)),
    eqPts'⟩, ?_, ?_, ?_, ?_, ?_, ?_, ?_, ?_, ?_, ?_, ?_, ?_, ?_⟩
  -- computation of the whole builder
  · have hassemble : assembleTree (buildFlat items) =
        some (nodes3,
          rootBucket (buildFlat items).locations
            (Dict.keys (buildFlat items).locations),
          collectEquipmentNodes nodes2 nodes2.length
            (rootBucket (buildFlat items).locations
              (Dict.keys (buildFlat items).locations)),
          eqPts') := by
      rw [show assembleTree (buildFlat items) =
          (match assignLocationParents (buildFlat items).locations
            (initLocationNodes (buildFlat items).locations) [] with
          | none => none
          | some (nodes1, roots) =>
            match assignEquipmentParents (buildFlat items).equipment nodes1 [] with
            | none => none
            | some (nodes2, eqPts0) =>
              let eqSet := collectEquipmentNodes nodes2 nodes2.length roots
              match assignPoints (buildFlat items).itemsByName eqSet nodes2 eqPts0 with
              | none => none
              | some (nodes3, eqPts) => some (nodes3, roots, eqSet, eqPts)) from rfl,
        hA1]
      dsimp only
      rw [hB1]
      dsimp only
      rw [hC1]
    rw [show buildItemsIndex items =
        (match assembleTree (buildFlat items) with
        | none => none
        | some (nodes, roots, eqSet, eqPts) =>
          some { itemsByName := (buildFlat items).itemsByName, locationNodes := nodes,
                 rootLocations := roots, equipmentNodes := eqSet, eqPoints := eqPts })
        from rfl, hassemble]
  · rfl
  · exact hC2
  · exact hndI
  · dsimp only
    rw [hC2]
    exact hndL
  · exact hndE
  · dsimp only
    rw [hC3]
    exact nodup_keys_eqPtsInit _ hndE
  · dsimp only
    rw [hC2]
  · dsimp only
    intro k nd h
    have hk2 : Dict.hasKey nodes2 k = true := by
      show (Dict.keys nodes2).contains k = true
      rw [hB2, ← hC2]
      exact Dict.hasKey_of_get? h
    have hchar2 := hnodes2 k hk2
    have h3 := hC4 k _ hchar2
    rw [hB2] at h3
    have hnd : nd = ⟨childBucket (buildFlat items).locations
        (Dict.keys (buildFlat items).locations) k,
      eqBucket (buildFlat items).equipment
        (Dict.keys (buildFlat items).locations) k,
      [] ++ locPtsBucket (buildFlat items).itemsByName
        (collectEquipmentNodes nodes2 nodes2.length
          (rootBucket (buildFlat items).locations
            (Dict.keys (buildFlat items).locations)))
        (Dict.keys (buildFlat items).locations) k⟩ :=
      Option.some.inj (h.symm.trans h3)
    rw [hC2, hnd]
    exact ⟨rfl, rfl, by simp⟩
  · dsimp only
    rw [hC2]
    exact hC3
  · dsimp only
    intro g pts h
    have hk0 : Dict.hasKey (eqPtsInit (buildFlat items).equipment
        (Dict.keys (buildFlat items).locations)) g = true := by
      show (Dict.keys (eqPtsInit (buildFlat items).equipment
        (Dict.keys (buildFlat items).locations))).contains g = true
      rw [← hC3]
      exact Dict.hasKey_of_get? h
    obtain ⟨pts0, hpts0⟩ := Dict.get?_isSome_of_hasKey hk0
    have hnil : pts0 = [] := eqPtsInit_val_nil hpts0
    have h5 := hC5 g pts0 hpts0
    rw [hnil] at h5
    have hfin : pts = [] ++ eqPtsBucket (buildFlat items).itemsByName
        (collectEquipmentNodes nodes2 nodes2.length
          (rootBucket (buildFlat items).locations
            (Dict.keys (buildFlat items).locations))) g :=
      Option.some.inj (h.symm.trans h5)
    simpa using hfin
  · dsimp only
    intro x hx
    obtain ⟨k, nd2, hk, hxeq⟩ := mem_collectEquipmentNodes nodes2 _ _ x hx
    refine ⟨k, _, hC4 k _ hk, ?_⟩
    exact hxeq
  · dsimp only
    have hshape : ∀ k,
        (Dict.get? nodes3 k).map (fun nd => (nd.childrenLocations, nd.equipment)) =
        (Dict.get? nodes2 k).map (fun nd => (nd.childrenLocations, nd.equipment)) := by
      intro k
      cases hk2 : Dict.get? nodes2 k with
      | none =>
        have : Dict.hasKey nodes3 k = false := by
          by_cases hh : Dict.hasKey nodes3 k
          · have hk2' : Dict.hasKey nodes2 k = true := by
              show (Dict.keys nodes2).contains k = true
              rw [hB2, ← hC2]
              exact hh
            obtain ⟨v, hv⟩ := Dict.get?_isSome_of_hasKey hk2'
            rw [hv] at hk2
            cases hk2
          · simpa using hh
        rw [Dict.get?_eq_none this]
      | some nd2 =>
        rw [hC4 k _ hk2]
        rfl
    have hlen : nodes3.length = nodes2.length := by
      have h1 : (Dict.keys nodes3).length = (Dict.keys nodes2).length := by
        rw [hC2, hB2]
      rw [Dict.keys_length, Dict.keys_length] at h1
      exact h1
    rw [hlen]
    exact (collectEquipmentNodes_congr hshape _ _).symm

/-! ## Forest structure of the location hierarchy (claim C9 support) -/

theorem perm_flatten {α : Type} {l₁ l₂ : List (List α)} (h : l₁.Perm l₂) :
    l₁.flatten.Perm l₂.flatten := by
  induction h with
  | nil => exact List.Perm.refl _
  | cons x h ih => simpa using ih.append_left x
  | swap x y l =>
    rw [List.flatten_cons, List.flatten_cons, List.flatten_cons, List.flatten_cons,
      ← List.append_assoc, ← List.append_assoc]
    exact List.perm_append_comm.append_right _
  | trans h₁ h₂ ih₁ ih₂ => exact ih₁.trans ih₂

/-- Updating one mapped element by a cons permutes the flattened image. -/
theorem flatten_map_update {α β : Type} (f g : α → List β) (x : α) (b : β) :
    ∀ l : List α, l.Nodup → x ∈ l → g x = b :: f x → (∀ y ∈ l, y ≠ x → g y = f y) →
    ((l.map g).flatten).Perm (b :: (l.map f).flatten) := by
  intro l
  induction l with
  | nil => intro _ hx; cases hx
  | cons a l' ih =>
    intro hnd hx hgx hother
    rcases List.mem_cons.1 hx with hax | hx'
    · have hax' : a = x := hax.symm
      subst hax'
      have hmap : l'.map g = l'.map f := by
        apply List.map_congr_left
        intro y hy
        have hya : y ≠ a := by
          intro he
          exact (List.nodup_cons.1 hnd).1 (he ▸ hy)
        exact hother y (List.mem_cons_of_mem a hy) hya
      rw [List.map_cons, List.map_cons, List.flatten_cons, List.flatten_cons, hgx, hmap]
      exact List.Perm.refl _
    · have hax : a ≠ x := by
        intro he
        exact (List.nodup_cons.1 hnd).1 (he ▸ hx')
      have hga : g a = f a := hother a (List.mem_cons_self a l') hax
      rw [List.map_cons, List.map_cons, List.flatten_cons, List.flatten_cons, hga]
      have hih := ih (List.nodup_cons.1 hnd).2 hx' hgx
        (fun y hy hyx => hother y (List.mem_cons_of_mem a hy) hyx)
      exact (hih.append_left (f a)).trans List.perm_middle

/-- The root list and the children lists together enumerate every location
exactly once: the buckets partition the `locations` dictionary. -/
theorem bucket_partition_perm (ks : List String) (hnd : ks.Nodup) :
    ∀ locs : Dict GInfo,
    (rootBucket locs ks ++ (ks.map (fun k => childBucket locs ks k)).flatten).Perm
      (locs.map (fun p => p.1)) := by
  intro locs
  induction locs with
  | nil =>
    have h1 : rootBucket ([] : Dict GInfo) ks = [] := rfl
    have h2 : ks.map (fun k => childBucket ([] : Dict GInfo) ks k) =
        ks.map (fun _ => ([] : List String)) :=
      List.map_congr_left (fun k _ => rfl)
    rw [h1, h2]
    simp
  | cons p rest ih =>
    obtain ⟨locName, info⟩ := p
    cases hc : candsOf ks info with
    | nil =>
      rw [rootBucket_cons_pos locName rest hc,
        List.map_congr_left
          (fun k _ => childBucket_cons_none locName rest k hc)]
      exact ih.cons locName
    | cons parent t =>
      rw [rootBucket_cons_neg locName rest hc]
      have hpmem : parent ∈ ks := by
        have hm : parent ∈ candsOf ks info := by
          rw [hc]
          exact List.mem_cons_self parent t
        have := List.of_mem_filter hm
        simpa using this
      have hupd : ((ks.map (fun k => childBucket ((locName, info) :: rest) ks k)).flatten).Perm
          (locName :: (ks.map (fun k => childBucket rest ks k)).flatten) := by
        apply flatten_map_update _ _ parent locName ks hnd hpmem
        · exact childBucket_cons_head locName rest hc
        · intro y _ hy
          exact childBucket_cons_other locName rest hc hy
      have hmid : (rootBucket rest ks ++
          (locName :: (ks.map (fun k => childBucket rest ks k)).flatten)).Perm
          (locName :: (rootBucket rest ks ++
            (ks.map (fun k => childBucket rest ks k)).flatten)) :=
        List.perm_middle
      exact ((hupd.append_left _).trans hmid).trans (ih.cons locName)

theorem rootBucket_sub_keys {locs : Dict GInfo} {ks : List String} {c : String}
    (h : c ∈ rootBucket locs ks) : c ∈ Dict.keys locs := by
  unfold rootBucket at h
  obtain ⟨p, hp, he⟩ := List.mem_map.1 h
  exact List.mem_map.2 ⟨p, (List.mem_filter.1 hp).1, he⟩

theorem childBucket_sub_keys {locs : Dict GInfo} {ks : List String} {k c : String}
    (h : c ∈ childBucket locs ks k) : c ∈ Dict.keys locs := by
  unfold childBucket at h
  obtain ⟨p, hp, he⟩ := List.mem_map.1 h
  exact List.mem_map.2 ⟨p, (List.mem_filter.1 hp).1, he⟩

theorem collectEquipmentNodes_nil (nodes : Dict LocNode) :
    ∀ fuel : Nat, collectEquipmentNodes nodes fuel [] = [] := by
  intro fuel
  cases fuel <;> rfl

theorem collectEquipmentNodes_cons (nodes : Dict LocNode) (fuel : Nat)
    (n : String) (rest : List String) :
    collectEquipmentNodes nodes (fuel + 1) (n :: rest) =
      match Dict.get? nodes n with
      | none => collectEquipmentNodes nodes fuel rest
      | some nd =>
        nd.equipment ++ collectEquipmentNodes nodes fuel (nd.childrenLocations ++ rest) :=
  rfl

/-- The traversal is fuel-stable as soon as the fuel reaches the number of
still-unvisited nodes: under the at-most-one-parent discipline each worklist
element is processed at most once, so the recursion of lines 191-195
terminates after at most one visit per location node. -/
theorem collectEquipmentNodes_stable (nodes : Dict LocNode) :
    ∀ (bound : Nat) (avail ws : List String) (fuel₁ fuel₂ : Nat),
    avail.length ≤ bound →
    avail.Nodup →
    (∀ x ∈ avail, Dict.hasKey nodes x = true) →
    (∀ m ∈ avail, ∀ c ∈ csOf nodes m, c ∈ avail) →
    (ws ++ (avail.map (csOf nodes)).flatten).Nodup →
    (∀ x ∈ ws, x ∈ avail) →
    avail.length ≤ fuel₁ → avail.length ≤ fuel₂ →
    collectEquipmentNodes nodes fuel₁ ws = collectEquipmentNodes nodes fuel₂ ws := by
  intro bound
  induction bound with
  | zero =>
    intro avail ws fuel₁ fuel₂ hb _ _ _ _ hws _ _
    have havail : avail = [] := List.length_eq_zero.1 (Nat.le_zero.1 hb)
    cases ws with
    | nil => rw [collectEquipmentNodes_nil, collectEquipmentNodes_nil]
    | cons n rest =>
      have := hws n (List.mem_cons_self n rest)
      rw [havail] at this
      cases this
  | succ bound ihN =>
    intro avail ws fuel₁ fuel₂ hb hnd hkeys hclosed hnodup hws h₁ h₂
    cases ws with
    | nil => rw [collectEquipmentNodes_nil, collectEquipmentNodes_nil]
    | cons n rest =>
      have hn_avail : n ∈ avail := hws n (List.mem_cons_self n rest)
      have hpos : 1 ≤ avail.length := List.length_pos_of_mem hn_avail
      obtain ⟨f₁, rfl⟩ : ∃ f, fuel₁ = f + 1 := ⟨fuel₁ - 1, by omega⟩
      obtain ⟨f₂, rfl⟩ : ∃ f, fuel₂ = f + 1 := ⟨fuel₂ - 1, by omega⟩
      obtain ⟨nd, hndget⟩ := Dict.get?_isSome_of_hasKey (hkeys n hn_avail)
      have hcs : csOf nodes n = nd.childrenLocations := by
        unfold csOf
        rw [hndget]
      rw [collectEquipmentNodes_cons, collectEquipmentNodes_cons, hndget]
      dsimp only
      -- set up the invariant for the recursive call
      have hn_notin : n ∉ rest ++ (avail.map (csOf nodes)).flatten :=
        (List.nodup_cons.1 hnodup).1
      have htail_nodup : (rest ++ (avail.map (csOf nodes)).flatten).Nodup :=
        (List.nodup_cons.1 hnodup).2
      have hperm : ((avail.map (csOf nodes)).flatten).Perm
          (csOf nodes n ++ ((avail.erase n).map (csOf nodes)).flatten) := by
        have h1 : avail.Perm (n :: avail.erase n) := List.perm_cons_erase hn_avail
        have h2 := perm_flatten (h1.map (csOf nodes))
        simpa using h2
      have hrearr : (rest ++ (avail.map (csOf nodes)).flatten).Perm
          ((csOf nodes n ++ rest) ++ ((avail.erase n).map (csOf nodes)).flatten) := by
        refine ((hperm.append_left rest).trans ?_)
        rw [← List.append_assoc]
        exact List.perm_append_comm.append_right _
      have hnodup' : ((csOf nodes n ++ rest) ++
          ((avail.erase n).map (csOf nodes)).flatten).Nodup :=
        hrearr.nodup htail_nodup
      have hsub' : ∀ x ∈ csOf nodes n ++ rest, x ∈ avail.erase n := by
        intro x hx
        have hxa : x ∈ avail := by
          rcases List.mem_append.1 hx with hx | hx
          · exact hclosed n hn_avail x hx
          · exact hws x (List.mem_cons_of_mem n hx)
        have hxn : x ≠ n := by
          intro he
          apply hn_notin
          rcases List.mem_append.1 hx with hx1 | hx1
          · exact List.mem_append.2 (Or.inr (List.mem_flatten.2
              ⟨csOf nodes n, List.mem_map_of_mem _ hn_avail, he ▸ hx1⟩))
          · exact List.mem_append.2 (Or.inl (he ▸ hx1))
        exact (List.mem_erase_of_ne hxn).2 hxa
      have hclosed' : ∀ m ∈ avail.erase n, ∀ c ∈ csOf nodes m, c ∈ avail.erase n := by
        intro m hm c hc
        have hma : m ∈ avail := List.mem_of_mem_erase hm
        have hca : c ∈ avail := hclosed m hma c hc
        have hcn : c ≠ n := by
          intro he
          apply hn_notin
          exact List.mem_append.2 (Or.inr (List.mem_flatten.2
            ⟨csOf nodes m, List.mem_map_of_mem _ hma, he ▸ hc⟩))
        exact (List.mem_erase_of_ne hcn).2 hca
      have hlen' : (avail.erase n).length = avail.length - 1 :=
        List.length_erase_of_mem hn_avail
      have hcall := ihN (avail.erase n) (nd.childrenLocations ++ rest) f₁ f₂
        (by omega) (hnd.erase n)
        (fun x hx => hkeys x (List.mem_of_mem_erase hx))
        hclosed'
        (by rw [← hcs]; exact hnodup')
        (by rw [← hcs]; exact hsub')
        (by omega) (by omega)
      rw [hcall]

/-! ## Shared helpers for the claims -/

theorem Dict.eq_of_mem_nodup {α : Type} {d : Dict α} {p q : String × α}
    (hnd : (Dict.keys d).Nodup) (hp : p ∈ d) (hq : q ∈ d) (he : p.1 = q.1) : p = q := by
  have h1 := Dict.get?_of_mem hnd hp
  have h2 := Dict.get?_of_mem hnd hq
  rw [he] at h1
  have h3 : p.2 = q.2 := Option.some.inj (h1.symm.trans h2)
  cases p
  cases q
  simp_all

theorem mem_childBucket_iff {locs : Dict GInfo} {ks : List String} {k x : String} :
    x ∈ childBucket locs ks k ↔
      ∃ p ∈ locs, p.1 = x ∧ (candsOf ks p.2).head? = some k := by
  unfold childBucket
  constructor
  · intro h
    obtain ⟨p, hp, he⟩ := List.mem_map.1 h
    obtain ⟨hmem, hpred⟩ := List.mem_filter.1 hp
    exact ⟨p, hmem, he, by simpa using hpred⟩
  · rintro ⟨p, hp, he, hh⟩
    exact List.mem_map.2 ⟨p, List.mem_filter.2 ⟨hp, by simpa using hh⟩, he⟩

theorem mem_eqBucket_iff {eqs : Dict GInfo} {ks : List String} {k x : String} :
    x ∈ eqBucket eqs ks k ↔
      ∃ p ∈ eqs, p.1 = x ∧ (candsOf ks p.2).head? = some k := by
  unfold eqBucket
  constructor
  · intro h
    obtain ⟨p, hp, he⟩ := List.mem_map.1 h
    obtain ⟨hmem, hpred⟩ := List.mem_filter.1 hp
    exact ⟨p, hmem, he, by simpa using hpred⟩
  · rintro ⟨p, hp, he, hh⟩
    exact List.mem_map.2 ⟨p, List.mem_filter.2 ⟨hp, by simpa using hh⟩, he⟩

theorem mem_eqPtsBucket_iff {entries : List (String × Entry)} {eqSet : List String}
    {g x : String} :
    x ∈ eqPtsBucket entries eqSet g ↔
      ∃ q ∈ entries, q.1 = x ∧ q.2.semantic.isPoint = true ∧
        firstIn q.2.groupNames eqSet = some g := by
  unfold eqPtsBucket
  constructor
  · intro h
    obtain ⟨q, hq, he⟩ := List.mem_map.1 h
    obtain ⟨hmem, hpred⟩ := List.mem_filter.1 hq
    have := Bool.and_eq_true_iff.1 hpred
    exact ⟨q, hmem, he, this.1, by simpa using this.2⟩
  · rintro ⟨q, hq, he, hp, hf⟩
    exact List.mem_map.2 ⟨q, List.mem_filter.2 ⟨hq, by simp [hp, hf]⟩, he⟩

theorem mem_locPtsBucket_iff {entries : List (String × Entry)} {eqSet ks : List String}
    {k x : String} :
    x ∈ locPtsBucket entries eqSet ks k ↔
      ∃ q ∈ entries, q.1 = x ∧ q.2.semantic.isPoint = true ∧
        firstIn q.2.groupNames eqSet = none ∧ firstIn q.2.groupNames ks = some k := by
  unfold locPtsBucket
  constructor
  · intro h
    obtain ⟨q, hq, he⟩ := List.mem_map.1 h
    obtain ⟨hmem, hpred⟩ := List.mem_filter.1 hq
    have h1 := Bool.and_eq_true_iff.1 hpred
    have h2 := Bool.and_eq_true_iff.1 h1.1
    refine ⟨q, hmem, he, h2.1, ?_, by simpa using h1.2⟩
    have := h2.2
    simpa [Option.isNone_iff_eq_none] using this
  · rintro ⟨q, hq, he, hp, hn, hf⟩
    exact List.mem_map.2 ⟨q, List.mem_filter.2 ⟨hq, by simp [hp, hn, hf]⟩, he⟩

/-! ## The claims -/

/-- Claim C3: for every tag list the classifier sets `isLocation` true iff
some tag equals `"Location"` or ends with the suffix `"Location"` (and
analogously for `isEquipment` / `isPoint`); `propertyTags` is exactly the
tags (in order) not equal to the three literal strings, so suffix-matched
tags like `"IndoorLocation"` remain; an absent or empty tag list yields all
three flags false and empty `propertyTags`. -/
theorem claim_C3_tag_classifier : ∀ tags : List String,
    (isLocationTags tags = true ↔
      ∃ t ∈ tags, t = "Location" ∨ ∃ pre, pre ++ "Location".data = t.data) ∧
    (isEquipmentTags tags = true ↔
      ∃ t ∈ tags, t = "Equipment" ∨ ∃ pre, pre ++ "Equipment".data = t.data) ∧
    (isPointTags tags = true ↔
      ∃ t ∈ tags, t = "Point" ∨ ∃ pre, pre ++ "Point".data = t.data) ∧
    (∀ t, t ∈ propertyTagsOf tags ↔
      t ∈ tags ∧ t ≠ "Location" ∧ t ≠ "Equipment" ∧ t ≠ "Point") ∧
    (propertyTagsOf tags).Sublist tags ∧
    (isLocationTags ["IndoorLocation"] = true ∧
      propertyTagsOf ["IndoorLocation"] = ["IndoorLocation"]) ∧
    mkSemantic [] = ⟨false, false, false, []⟩ ∧
    (∀ it : Item, it.tags = none → mkSemantic (tagsOf it) = ⟨false, false, false, []⟩) := by
  intro tags
  have hflag : ∀ suf : String,
      (tags.any (fun t => endsWithStr t suf || t == suf) = true ↔
        ∃ t ∈ tags, t = suf ∨ ∃ pre, pre ++ suf.data = t.data) := by
    intro suf
    rw [List.any_eq_true]
    constructor
    · rintro ⟨t, ht, hp⟩
      rcases Bool.or_eq_true_iff.1 hp with hp | hp
      · unfold endsWithStr at hp
        obtain ⟨pre, hpre⟩ := List.isSuffixOf_iff_suffix.1 hp
        exact ⟨t, ht, Or.inr ⟨pre, hpre⟩⟩
      · exact ⟨t, ht, Or.inl (by simpa using hp)⟩
    · rintro ⟨t, ht, hcase | ⟨pre, hpre⟩⟩
      · exact ⟨t, ht, Bool.or_eq_true_iff.2 (Or.inr (by simp [hcase]))⟩
      · refine ⟨t, ht, Bool.or_eq_true_iff.2 (Or.inl ?_)⟩
        unfold endsWithStr
        exact List.isSuffixOf_iff_suffix.2 ⟨pre, hpre⟩
  refine ⟨hflag "Location", hflag "Equipment", hflag "Point", ?_, ?_, ?_, rfl, ?_⟩
  · intro t
    rw [propertyTagsOf, List.mem_filter]
    simp [and_assoc]
  · exact List.filter_sublist tags
  · exact ⟨by decide, by decide⟩
  · intro it h
    have ht : tagsOf it = [] := by
      rw [tagsOf, h]
      rfl
    rw [ht]
    rfl

/-- Claim C5: the flat index has exactly one entry per distinct non-empty
name, a key exists iff some record carries that name, and the stored entry
is built from the last record with that name in input order. -/
theorem claim_C5_last_write_wins : ∀ items : List Item,
    (Dict.keys (buildFlat items).itemsByName).Nodup ∧
    (∀ n, Dict.hasKey (buildFlat items).itemsByName n = true ↔
      ∃ it ∈ items, getName it = some n) ∧
    (∀ n, Dict.get? (buildFlat items).itemsByName n =
      match (items.filter (fun it => getName it == some n)).getLast? with
      | none => none
      | some it => some (mkEntry n it)) := by
  intro items
  have hget := buildFlatAux_get? items ⟨[], [], []⟩
  refine ⟨(buildFlatAux_nodup items ⟨[], [], []⟩
    List.nodup_nil List.nodup_nil List.nodup_nil).1, ?_, ?_⟩
  · intro n
    constructor
    · intro h
      rcases (buildFlatAux_hasKey_src items ⟨[], [], []⟩ n).1 h with h' | h'
      · simp [Dict.hasKey, Dict.keys] at h'
      · exact h'
    · rintro ⟨it, hit, hname⟩
      have h3 := hget n
      have hfilter : it ∈ items.filter (fun it2 => getName it2 == some n) :=
        List.mem_filter.2 ⟨hit, by simp [hname]⟩
      have hne : items.filter (fun it2 => getName it2 == some n) ≠ [] := by
        intro he
        rw [he] at hfilter
        cases hfilter
      cases hl : (items.filter (fun it2 => getName it2 == some n)).getLast? with
      | none => exact absurd (List.getLast?_eq_none_iff.1 hl) hne
      | some it2 =>
        rw [hl] at h3
        exact Dict.hasKey_of_get?
          (show Dict.get? (buildFlat items).itemsByName n = some (mkEntry n it2) from h3)
  · intro n
    have h3 := hget n
    cases hl : (items.filter (fun it2 => getName it2 == some n)).getLast? with
    | none =>
      rw [hl] at h3
      exact h3
    | some it2 =>
      rw [hl] at h3
      exact h3

/-- Claim C6: records with a missing or empty name produce no entry in any
of the three dictionaries, raise nothing, and never influence the output of
`build_items_index`. -/
theorem claim_C6_nameless_skipped : ∀ items : List Item,
    buildItemsIndex items =
      buildItemsIndex (items.filter (fun it => (getName it).isSome)) ∧
    (∀ n, Dict.hasKey (buildFlat items).itemsByName n = true →
      ∃ it ∈ items, getName it = some n) ∧
    (∀ n, Dict.hasKey (buildFlat items).locations n = true →
      ∃ it ∈ items, getName it = some n) ∧
    (∀ n, Dict.hasKey (buildFlat items).equipment n = true →
      ∃ it ∈ items, getName it = some n) ∧
    Dict.hasKey (buildFlat items).itemsByName "" = false ∧
    Dict.hasKey (buildFlat items).locations "" = false ∧
    Dict.hasKey (buildFlat items).equipment "" = false := by
  intro items
  have hsrc := buildFlatAux_hasKey_src items ⟨[], [], []⟩
  have h2 : ∀ n, Dict.hasKey (buildFlat items).itemsByName n = true →
      ∃ it ∈ items, getName it = some n := by
    intro n h
    rcases (hsrc n).1 h with h' | h'
    · simp [Dict.hasKey, Dict.keys] at h'
    · exact h'
  have h3 : ∀ n, Dict.hasKey (buildFlat items).locations n = true →
      ∃ it ∈ items, getName it = some n := by
    intro n h
    rcases (hsrc n).2.1 h with h' | h'
    · simp [Dict.hasKey, Dict.keys] at h'
    · exact h'
  have h4 : ∀ n, Dict.hasKey (buildFlat items).equipment n = true →
      ∃ it ∈ items, getName it = some n := by
    intro n h
    rcases (hsrc n).2.2 h with h' | h'
    · simp [Dict.hasKey, Dict.keys] at h'
    · exact h'
  have hempty : ∀ (f : FlatResult → Dict GInfo),
      (∀ n, Dict.hasKey (f (buildFlat items)) n = true →
        ∃ it ∈ items, getName it = some n) →
      Dict.hasKey (f (buildFlat items)) "" = false := by
    intro f hf
    cases hk : Dict.hasKey (f (buildFlat items)) "" with
    | false => rfl
    | true =>
      obtain ⟨it, _, hname⟩ := hf "" hk
      exact absurd rfl (getName_ne_empty hname)
  refine ⟨?_, h2, h3, h4, ?_, hempty (fun f => f.locations) h3,
    hempty (fun f => f.equipment) h4⟩
  · have hb : buildFlat items = buildFlat (items.filter (fun it => (getName it).isSome)) :=
      buildFlatAux_filter_named items ⟨[], [], []⟩
    simp only [buildItemsIndex]
    rw [hb]
  · cases hk : Dict.hasKey (buildFlat items).itemsByName "" with
    | false => rfl
    | true =>
      obtain ⟨it, _, hname⟩ := h2 "" hk
      exact absurd rfl (getName_ne_empty hname)

/-- Claim C7: `build_items_index` never raises: every dictionary subscript it
performs is backed by a membership test, so the `Option`-valued embedding
always returns a result. -/
theorem claim_C7_total : ∀ items : List Item, (buildItemsIndex items).isSome = true := by
  intro items
  obtain ⟨r, hr, _⟩ := buildItemsIndex_spec items
  rw [hr]
  rfl

/-- Claim C8: `build_items_index` is a deterministic, side-effect-free
function: identical input lists give identical outputs, and re-running the
tree assembler on the same flat result gives an identical forest. -/
theorem claim_C8_deterministic : ∀ items₁ items₂ : List Item, items₁ = items₂ →
    buildItemsIndex items₁ = buildItemsIndex items₂ ∧
    (∀ flat : FlatResult, assembleTree flat = assembleTree flat) ∧
    buildItemsIndex items₁ = buildItemsIndex items₁ := by
  intro items₁ items₂ h
  subst h
  exact ⟨rfl, fun _ => rfl, rfl⟩

/-- Claim C1: for every location entry the parent candidates are the group
names that are location-node keys, in original order; a location with no
candidate is appended to the root list in `locations` iteration order, and
one with candidates becomes a child of the first candidate only; the same
first-match rule selects the owning location of every equipment entry. -/
theorem claim_C1_first_match_placement : ∀ (items : List Item) (r : IndexResult),
    buildItemsIndex items = some r →
    r.rootLocations =
      rootBucket (buildFlat items).locations (Dict.keys r.locationNodes) ∧
    (∀ k nd, Dict.get? r.locationNodes k = some nd →
      nd.childrenLocations =
        childBucket (buildFlat items).locations (Dict.keys r.locationNodes) k ∧
      nd.equipment =
        eqBucket (buildFlat items).equipment (Dict.keys r.locationNodes) k) ∧
    (∀ p ∈ (buildFlat items).locations, ∀ k nd,
      Dict.get? r.locationNodes k = some nd → p.1 ∈ nd.childrenLocations →
      (candsOf (Dict.keys r.locationNodes) p.2).head? = some k) ∧
    (∀ p ∈ (buildFlat items).equipment, ∀ k nd,
      Dict.get? r.locationNodes k = some nd → p.1 ∈ nd.equipment →
      (candsOf (Dict.keys r.locationNodes) p.2).head? = some k) := by
  intro items r hr
  obtain ⟨r', h1, h2, h3, h4, h5, h6, h7, h8, h9, h10, h11, h12, h13⟩ :=
    buildItemsIndex_spec items
  have hrr : r = r' := Option.some.inj (hr.symm.trans h1)
  subst hrr
  refine ⟨h8, fun k nd h => ⟨(h9 k nd h).1, (h9 k nd h).2.1⟩, ?_, ?_⟩
  · intro p hp k nd hknd hmem
    rw [(h9 k nd hknd).1] at hmem
    obtain ⟨q, hq, hq1, hqh⟩ := mem_childBucket_iff.1 hmem
    have hndlocs : (Dict.keys (buildFlat items).locations).Nodup := h3 ▸ h5
    have hqp : q = p := Dict.eq_of_mem_nodup hndlocs hq hp hq1
    exact hqp ▸ hqh
  · intro p hp k nd hknd hmem
    rw [(h9 k nd hknd).2.1] at hmem
    obtain ⟨q, hq, hq1, hqh⟩ := mem_eqBucket_iff.1 hmem
    have hqp : q = p := Dict.eq_of_mem_nodup h6 hq hp hq1
    exact hqp ▸ hqh

/-- Claim C2: every point entry of the flat index is placed with the first
group name matching the reachable-equipment lookup, else the first matching
location node, else nowhere; consequently a point name is owned by at most
one node of the forest, never by both an equipment and a location node. -/
theorem claim_C2_point_placement : ∀ (items : List Item) (r : IndexResult),
    buildItemsIndex items = some r →
    (∀ g pts, Dict.get? r.eqPoints g = some pts →
      pts = eqPtsBucket r.itemsByName r.equipmentNodes g) ∧
    (∀ k nd, Dict.get? r.locationNodes k = some nd →
      nd.points =
        locPtsBucket r.itemsByName r.equipmentNodes (Dict.keys r.locationNodes) k) ∧
    (∀ x g pts k nd, Dict.get? r.eqPoints g = some pts → x ∈ pts →
      Dict.get? r.locationNodes k = some nd → x ∈ nd.points → False) ∧
    (∀ x g g2 pts pts2, Dict.get? r.eqPoints g = some pts → x ∈ pts →
      Dict.get? r.eqPoints g2 = some pts2 → x ∈ pts2 → g = g2) ∧
    (∀ x k k2 nd nd2, Dict.get? r.locationNodes k = some nd → x ∈ nd.points →
      Dict.get? r.locationNodes k2 = some nd2 → x ∈ nd2.points → k = k2) ∧
    (∀ q ∈ r.itemsByName, q.2.semantic.isPoint = true →
      firstIn q.2.groupNames r.equipmentNodes = none →
      firstIn q.2.groupNames (Dict.keys r.locationNodes) = none →
      (∀ g pts, Dict.get? r.eqPoints g = some pts → q.1 ∉ pts) ∧
      (∀ k nd, Dict.get? r.locationNodes k = some nd → q.1 ∉ nd.points)) := by
  intro items r hr
  obtain ⟨r', h1, h2, h3, h4, h5, h6, h7, h8, h9, h10, h11, h12, h13⟩ :=
    buildItemsIndex_spec items
  have hrr : r = r' := Option.some.inj (hr.symm.trans h1)
  subst hrr
  have hndE2 := h4
  refine ⟨h11, fun k nd h => (h9 k nd h).2.2, ?_, ?_, ?_, ?_⟩
  · intro x g pts k nd hgp hxp hknd hxn
    rw [h11 g pts hgp] at hxp
    rw [(h9 k nd hknd).2.2] at hxn
    obtain ⟨q, hq, hq1, _, hqf⟩ := mem_eqPtsBucket_iff.1 hxp
    obtain ⟨q2, hq2, hq21, _, hq2n, _⟩ := mem_locPtsBucket_iff.1 hxn
    have : q = q2 := Dict.eq_of_mem_nodup hndE2 hq hq2 (hq1.trans hq21.symm)
    rw [this, hq2n] at hqf
    cases hqf
  · intro x g g2 pts pts2 hgp hxp hgp2 hxp2
    rw [h11 g pts hgp] at hxp
    rw [h11 g2 pts2 hgp2] at hxp2
    obtain ⟨q, hq, hq1, _, hqf⟩ := mem_eqPtsBucket_iff.1 hxp
    obtain ⟨q2, hq2, hq21, _, hqf2⟩ := mem_eqPtsBucket_iff.1 hxp2
    have : q = q2 := Dict.eq_of_mem_nodup hndE2 hq hq2 (hq1.trans hq21.symm)
    rw [this] at hqf
    exact Option.some.inj (hqf.symm.trans hqf2)
  · intro x k k2 nd nd2 hknd hxn hknd2 hxn2
    rw [(h9 k nd hknd).2.2] at hxn
    rw [(h9 k2 nd2 hknd2).2.2] at hxn2
    obtain ⟨q, hq, hq1, _, _, hqf⟩ := mem_locPtsBucket_iff.1 hxn
    obtain ⟨q2, hq2, hq21, _, _, hqf2⟩ := mem_locPtsBucket_iff.1 hxn2
    have : q = q2 := Dict.eq_of_mem_nodup hndE2 hq hq2 (hq1.trans hq21.symm)
    rw [this] at hqf
    exact Option.some.inj (hqf.symm.trans hqf2)
  · intro q hq hpt hfe hfl
    constructor
    · intro g pts hgp hmem
      rw [h11 g pts hgp] at hmem
      obtain ⟨q2, hq2, hq21, _, hqf⟩ := mem_eqPtsBucket_iff.1 hmem
      have : q2 = q := Dict.eq_of_mem_nodup hndE2 hq2 hq hq21
      rw [this, hfe] at hqf
      cases hqf
    · intro k nd hknd hmem
      rw [(h9 k nd hknd).2.2] at hmem
      obtain ⟨q2, hq2, hq21, _, _, hqf⟩ := mem_locPtsBucket_iff.1 hmem
      have : q2 = q := Dict.eq_of_mem_nodup hndE2 hq2 hq hq21
      rw [this, hfl] at hqf
      cases hqf

/-- Claim C4: an equipment entry with no location-node candidate among its
group names is attached to no location's equipment list, while its entry is
still present in the flat index; no error arises. -/
theorem claim_C4_orphan_equipment : ∀ (items : List Item) (r : IndexResult)
    (n : String) (info : GInfo),
    buildItemsIndex items = some r →
    Dict.get? (buildFlat items).equipment n = some info →
    candsOf (Dict.keys r.locationNodes) info = [] →
    (∀ p ∈ r.locationNodes, n ∉ p.2.equipment) ∧
    Dict.hasKey r.itemsByName n = true := by
  intro items r n info hr hinfo hcands
  obtain ⟨r', h1, h2, h3, h4, h5, h6, h7, h8, h9, h10, h11, h12, h13⟩ :=
    buildItemsIndex_spec items
  have hrr : r = r' := Option.some.inj (hr.symm.trans h1)
  subst hrr
  refine ⟨?_, ?_⟩
  · intro p hp hmem
    have hget := Dict.get?_of_mem h5 hp
    rw [(h9 p.1 p.2 hget).2.1] at hmem
    obtain ⟨q, hq, hq1, hqh⟩ := mem_eqBucket_iff.1 hmem
    have hq' : q = (n, info) :=
      Dict.eq_of_mem_nodup h6 hq (Dict.mem_of_get? hinfo) (by rw [hq1])
    rw [hq'] at hqh
    rw [show ((n, info) : String × GInfo).2 = info from rfl, hcands] at hqh
    cases hqh
  · have hin : Dict.hasKey (buildFlat items).equipment n = true := Dict.hasKey_of_get? hinfo
    have hsub := buildFlatAux_aux_sub items ⟨[], [], []⟩
      (fun n h => h) (fun n h => h)
    rw [h2]
    exact hsub.2 n hin

/-- Claim C9: the child lists built by the parent-assignment loop give every
location exactly one occurrence among the root list and all children lists
(so the part of the graph reachable from the roots is a forest, and
locations inside a group-membership cycle are simply unreachable), and the
depth-first equipment collection is fuel-stable at one visit per node: any
fuel of at least the number of location nodes returns the builder's
equipment lookup. -/
theorem claim_C9_traversal_terminates : ∀ (items : List Item) (r : IndexResult),
    buildItemsIndex items = some r →
    (r.rootLocations ++
      (r.locationNodes.map (fun p => p.2.childrenLocations)).flatten).Perm
      (Dict.keys r.locationNodes) ∧
    (∀ fuel, r.locationNodes.length ≤ fuel →
      collectEquipmentNodes r.locationNodes fuel r.rootLocations = r.equipmentNodes) := by
  intro items r hr
  obtain ⟨r', h1, h2, h3, h4, h5, h6, h7, h8, h9, h10, h11, h12, h13⟩ :=
    buildItemsIndex_spec items
  have hrr : r = r' := Option.some.inj (hr.symm.trans h1)
  subst hrr
  have hbucketeq : ∀ k ∈ Dict.keys r.locationNodes,
      csOf r.locationNodes k =
        childBucket (buildFlat items).locations (Dict.keys r.locationNodes) k := by
    intro k hk
    obtain ⟨nd, hnd⟩ := Dict.get?_isSome_of_hasKey (Dict.hasKey_iff.2 hk)
    unfold csOf
    rw [hnd]
    dsimp only
    exact (h9 k nd hnd).1
  have hentries_map : r.locationNodes.map (fun p => p.2.childrenLocations) =
      (Dict.keys r.locationNodes).map
        (fun k => childBucket (buildFlat items).locations
          (Dict.keys r.locationNodes) k) := by
    have hstep : r.locationNodes.map (fun p => p.2.childrenLocations) =
        r.locationNodes.map (fun p =>
          childBucket (buildFlat items).locations (Dict.keys r.locationNodes) p.1) := by
      apply List.map_congr_left
      intro p hp
      exact (h9 p.1 p.2 (Dict.get?_of_mem h5 hp)).1
    rw [hstep]
    rw [show Dict.keys r.locationNodes = r.locationNodes.map (fun p => p.1) from rfl,
      List.map_map]
    rfl
  have hperm := bucket_partition_perm (Dict.keys r.locationNodes) h5
    (buildFlat items).locations
  have hmapfst : (buildFlat items).locations.map (fun p => p.1) =
      Dict.keys r.locationNodes := by
    rw [h3]
    rfl
  constructor
  · rw [h8, hentries_map]
    exact hmapfst ▸ hperm
  · intro fuel hfuel
    have havail_len : (Dict.keys r.locationNodes).length = r.locationNodes.length :=
      Dict.keys_length _
    have hmapcs : (Dict.keys r.locationNodes).map (csOf r.locationNodes) =
        (Dict.keys r.locationNodes).map
          (fun k => childBucket (buildFlat items).locations
            (Dict.keys r.locationNodes) k) :=
      List.map_congr_left hbucketeq
    have hstab := collectEquipmentNodes_stable r.locationNodes
      (Dict.keys r.locationNodes).length (Dict.keys r.locationNodes) r.rootLocations
      fuel r.locationNodes.length
      (le_refl _) h5
      (fun x hx => Dict.hasKey_iff.2 hx)
      (by
        intro m hm c hc
        rw [hbucketeq m hm] at hc
        have := childBucket_sub_keys hc
        rw [h3]
        exact this)
      (by
        rw [h8, hmapcs]
        exact (hmapfst ▸ hperm).symm.nodup h5)
      (by
        intro x hx
        rw [h8] at hx
        rw [h3]
        exact rootBucket_sub_keys hx)
      (by rw [havail_len]; exact hfuel) (by rw [havail_len])
    rw [hstab, ← h13]

/-- Claim C10: on an input with two records named `"Attic"` where only the
first is tagged `"Location"`, the final flat entry has `isLocation = false`,
yet the tree still contains a root `LocationNode` for `"Attic"`: the
auxiliary `locations` dictionary accumulated the first occurrence and is
never purged by the later overwrite. -/
theorem claim_C10_stale_location :
    (buildItemsIndex exOverwrite).map (fun r =>
      (r.rootLocations,
        (Dict.get? r.itemsByName "Attic").map (fun e => e.semantic.isLocation),
        Dict.hasKey (buildFlat exOverwrite).locations "Attic")) =
    some (["Attic"], some false, true) := by decide

/-! ## Witnesses -/

/-- Witness for claim C1 at the end-to-end scenario. -/
theorem claim_C1_witness :
    buildItemsIndex exKitchen = some ((buildItemsIndex exKitchen).get!) ∧
    ((buildItemsIndex exKitchen).get!).rootLocations =
      rootBucket (buildFlat exKitchen).locations
        (Dict.keys ((buildItemsIndex exKitchen).get!).locationNodes) :=
  ⟨by decide, (claim_C1_first_match_placement exKitchen
    ((buildItemsIndex exKitchen).get!) (by decide)).1⟩

/-- Witness for claim C2: the point of the end-to-end scenario is owned by
the equipment node. -/
theorem claim_C2_witness :
    Dict.get? ((buildItemsIndex exKitchen).get!).eqPoints "Fridge" =
      some ["FridgeTemp"] ∧
    ["FridgeTemp"] = eqPtsBucket ((buildItemsIndex exKitchen).get!).itemsByName
      ((buildItemsIndex exKitchen).get!).equipmentNodes "Fridge" :=
  ⟨by decide, (claim_C2_point_placement exKitchen
    ((buildItemsIndex exKitchen).get!) (by decide)).1 "Fridge" ["FridgeTemp"] (by decide)⟩

/-- Witness for claim C3: an item without a tag list classifies as nothing. -/
theorem claim_C3_witness :
    ({} : Item).tags = none ∧
    mkSemantic (tagsOf ({} : Item)) = ⟨false, false, false, []⟩ :=
  ⟨rfl, (claim_C3_tag_classifier []).2.2.2.2.2.2.2 {} rfl⟩

/-- Witness for claim C4 at the orphan-equipment input. -/
theorem claim_C4_witness :
    candsOf (Dict.keys ((buildItemsIndex exOrphan).get!).locationNodes)
      ⟨"Heater", ["Equipment"], ["Basement"]⟩ = [] ∧
    Dict.hasKey ((buildItemsIndex exOrphan).get!).itemsByName "Heater" = true :=
  ⟨by decide, (claim_C4_orphan_equipment exOrphan ((buildItemsIndex exOrphan).get!)
    "Heater" ⟨"Heater", ["Equipment"], ["Basement"]⟩ (by decide) (by decide) (by decide)).2⟩

/-- Witness for claim C6 at an input containing a name-less record. -/
theorem claim_C6_witness :
    Dict.hasKey (buildFlat exNoName).itemsByName "Attic" = true ∧
    ∃ it ∈ exNoName, getName it = some "Attic" :=
  ⟨by decide, (claim_C6_nameless_skipped exNoName).2.1 "Attic" (by decide)⟩

/-- Witness for claim C8 at the end-to-end scenario. -/
theorem claim_C8_witness :
    exKitchen = exKitchen ∧ buildItemsIndex exKitchen = buildItemsIndex exKitchen :=
  ⟨rfl, (claim_C8_deterministic exKitchen exKitchen rfl).1⟩

/-- Witness for claim C9: fuel 5 exceeds the single location node of the
end-to-end scenario and the traversal is stable there. -/
theorem claim_C9_witness :
    ((buildItemsIndex exKitchen).get!).locationNodes.length ≤ 5 ∧
    collectEquipmentNodes ((buildItemsIndex exKitchen).get!).locationNodes 5
      ((buildItemsIndex exKitchen).get!).rootLocations =
      ((buildItemsIndex exKitchen).get!).equipmentNodes :=
  ⟨by decide, (claim_C9_traversal_terminates exKitchen
    ((buildItemsIndex exKitchen).get!) (by decide)).2 5 (by decide)⟩

end Crawler
